import Mathlib

/-!
Verification development for the Central Lakes Cup alpine ski scoring engine.

The definitions below are a shallow embedding of `src/js/xmlParser.js`
(time normalisation) and `src/js/scoring.js` (individual scoring, team
scoring, season aggregation).  JavaScript strings are modelled by Lean
`String` restricted to their ASCII behaviour (`trim`, `toLowerCase`,
`toUpperCase`, `includes`), nullable numbers by `Option ℤ`, and the
`null`/`NaN`/number distinction of raw parsed times by the inductive
`JSVal`.  JavaScript `Array.prototype.sort` with a consistent comparator
is a stable sort; it is modelled by `List.insertionSort`, which is stable
for the total preorders used here.
-/

namespace CLC

/-- Model of the character-level whitespace test used by `trim` (ASCII). -/
def wsChar (c : Char) : Bool := c.isWhitespace

/-- Model of `String.prototype.trim` (ASCII whitespace): drop whitespace
from both ends of the character list. -/
def jsTrimList (cs : List Char) : List Char :=
  ((cs.dropWhile wsChar).reverse.dropWhile wsChar).reverse

/-- Model of `String.prototype.trim` on `String`. -/
def jsTrim (s : String) : String := ⟨jsTrimList s.data⟩

/-- Model of `String.prototype.toLowerCase` (ASCII letters). -/
def jsLower (s : String) : String := ⟨s.data.map Char.toLower⟩

/-- Model of `String.prototype.toUpperCase` (ASCII letters). -/
def jsUpper (s : String) : String := ⟨s.data.map Char.toUpper⟩

/-- Test whether `sub` is a prefix of `l` (used to model `includes`). -/
def isPre : List Char → List Char → Bool
  | [], _ => true
  | _ :: _, [] => false
  | a :: as, b :: bs => a == b && isPre as bs

/-- Test whether `sub` occurs as a contiguous sublist of `l`. -/
def hasSub : List Char → List Char → Bool
  | [], sub => sub.isEmpty
  | a :: ls, sub => isPre sub (a :: ls) || hasSub ls sub

/-- Model of `String.prototype.includes`: `jsIncludes hay sub` is `true`
iff `sub` occurs inside `hay` (the empty string occurs in everything,
matching JavaScript). -/
def jsIncludes (hay sub : String) : Bool := hasSub hay.data sub.data

/-- Model of splitting a character list on `:` exactly as
`String.prototype.split(':')` does (an empty input yields `[[]]`,
mirroring `''.split(':') === ['']`). -/
def splitCols : List Char → List (List Char)
  | [] => [[]]
  | c :: cs =>
    let r := splitCols cs
    if c = ':' then [] :: r
    else
      match r with
      | [] => [[c]]
      | h :: t => (c :: h) :: t

/-- Value of a run of decimal digits, most significant first. -/
def digitsVal (cs : List Char) : ℕ :=
  cs.foldl (fun acc c => acc * 10 + (c.toNat - '0'.toNat)) 0

/-- Model of the decimal-literal fragment of JavaScript `parseInt` with
radix 10: skip leading whitespace, optional sign, then the longest.
digit prefix; `none` models the `NaN` result when no digit is found.
Hexadecimal prefixes and exponents never occur in the race files and are
outside the model. -/
def jsParseInt (s : String) : Option ℤ :=
  let cs := s.data.dropWhile wsChar
  let (sign, cs) : ℤ × List Char :=
    match cs with
    | '-' :: rest => (-1, rest)
    | '+' :: rest => (1, rest)
    | _ => (1, cs)
  let ds := cs.takeWhile Char.isDigit
  if ds.isEmpty then none else some (sign * (digitsVal ds : ℤ))

/-- Unnormalised rational number (numerator over positive denominator):
the exact value of a parsed decimal literal.  A dedicated structure
keeps every arithmetic step kernel-evaluable. -/
structure Frac where
  num : ℤ
  den : ℤ
deriving DecidableEq, Repr

/-- Power of ten as an integer. -/
def pow10 : ℕ → ℤ
  | 0 => 1
  | n + 1 => 10 * pow10 n

/-- Model of the decimal-literal fragment of JavaScript `parseFloat`:
skip leading whitespace, optional sign, digits with an optional
fractional part (at least one digit overall); `none` models `NaN`.
Exponents and `Infinity` never occur in time tokens and are outside the
model. -/
def jsParseFloat (s : String) : Option Frac :=
  let cs := s.data.dropWhile wsChar
  let (sign, cs) : ℤ × List Char :=
    match cs with
    | '-' :: rest => (-1, rest)
    | '+' :: rest => (1, rest)
    | _ => (1, cs)
  let intDigits := cs.takeWhile Char.isDigit
  let rest := cs.dropWhile Char.isDigit
  let fracDigits :=
    match rest with
    | '.' :: after => after.takeWhile Char.isDigit
    | _ => []
  if intDigits.isEmpty ∧ fracDigits.isEmpty then none
  else
    some ⟨sign * ((digitsVal intDigits : ℤ) * pow10 fracDigits.length +
      (digitsVal fracDigits : ℤ)), pow10 fracDigits.length⟩

/-- Model of `Math.round` on a finite number `n/d` with `d > 0`: round
half toward positive infinity, i.e. `⌊n/d + 1/2⌋ = ⌊(2n+d)/(2d)⌋`
computed with flooring integer division. -/
def jsRound (q : Frac) : ℤ := Int.fdiv (2 * q.num + q.den) (2 * q.den)

/-- Result of evaluating a JavaScript numeric expression that may be
`null` or `NaN` in the timing code. -/
inductive JSVal where
  | null
  | nan
  | num (n : ℤ)
deriving DecidableEq, Repr

/-- Round an optional number (where `none` is `NaN`) the way
`Math.round` behaves: `Math.round(NaN)` is `NaN`. -/
def roundVal : Option Frac → JSVal
  | none => JSVal.nan
  | some q => JSVal.num (jsRound q)

/-- Multiplication by an integer constant with `NaN` propagation. -/
def mulQ (a : Option Frac) (k : ℤ) : Option Frac :=
  a.map fun f => ⟨f.num * k, f.den⟩

/-- Addition with `NaN` propagation. -/
def addQ (a b : Option Frac) : Option Frac :=
  match a, b with
  | some x, some y => some ⟨x.num * y.den + y.num * x.den, x.den * y.den⟩
  | _, _ => none

/-- Model of `XMLParser.parseTime`: the marker check precedes trimming;
the trimmed token is split on `:` and interpreted as seconds,
minutes:seconds or hours:minutes:seconds; with four or more components
`totalMs` keeps its initial value `0`.  `JSVal.null` models the `null`
return, `JSVal.nan` the `NaN` produced by unparseable components. -/
def parseTime (timeStr : String) : JSVal :=
  if timeStr = "" ∨ timeStr = "DNF" ∨ timeStr = "DNS" ∨
     timeStr = "DSQ" ∨ timeStr = "DQ" then JSVal.null
  else
    let t := jsTrim timeStr
    match (splitCols t.data).map (fun cs => (⟨cs⟩ : String)) with
    | [p0] => roundVal (mulQ (jsParseFloat p0) 1000)
    | [p0, p1] =>
        roundVal (addQ (mulQ ((jsParseInt p0).map fun n => Frac.mk n 1) 60000)
          (mulQ (jsParseFloat p1) 1000))
    | [p0, p1, p2] =>
        roundVal (addQ (addQ
          (mulQ ((jsParseInt p0).map fun n => Frac.mk n 1) 3600000)
          (mulQ ((jsParseInt p1).map fun n => Frac.mk n 1) 60000))
          (mulQ (jsParseFloat p2) 1000))
    | _ => JSVal.num 0

/-- Model of `XMLParser.checkStatus`: DNF/DNS and DSQ/DQ tokens are
checked on the raw time string first, then the numeric status codes
`'2'` (DNF) and `'3'` (DSQ). -/
def checkStatus (timeStr statusCode : String) : String :=
  if timeStr = "DNF" ∨ timeStr = "DNS" then "DNF"
  else if timeStr = "DSQ" ∨ timeStr = "DQ" then "DSQ"
  else if statusCode = "2" then "DNF"
  else if statusCode = "3" then "DSQ"
  else "OK"

/-- One raw `Time` element attached to a competitor, as built by
`parseCompetitors`: the `Course` text, the order index of the element,
the `Result` text and the `Status` text. -/
structure TimeEntry where
  course : String
  runIndex : ℕ
  time : String
  status : String
deriving DecidableEq, Repr

/-- Output record of `processRacerTimes`. -/
structure ProcessedTimes where
  run1 : JSVal
  run2 : JSVal
  totalTime : JSVal
  status : String
  dnf : Bool
  dsq : Bool
deriving DecidableEq, Repr

/-- Loop state of the `times.forEach` loops in `processRacerTimes`. -/
structure ProcState where
  run1 : JSVal
  run2 : JSVal
  dnf : Bool
  dsq : Bool
  status : String
deriving DecidableEq, Repr

/-- One iteration of the dual-course loop of `processRacerTimes`
(`raceType === 1`): the run slot is selected by the parsed course
number. -/
def procStepDual (st : ProcState) (t : TimeEntry) : ProcState :=
  let timeVal := parseTime t.time
  let timeStatus := checkStatus t.time t.status
  let st :=
    if timeStatus = "DNF" then { st with dnf := true, status := "DNF" }
    else if timeStatus = "DSQ" then { st with dsq := true, status := "DSQ" }
    else st
  let courseNum := jsParseInt t.course
  if courseNum = some 0 then { st with run1 := timeVal }
  else if courseNum = some 1 then { st with run2 := timeVal }
  else st

/-- One iteration of the single-course loop of `processRacerTimes`: the
run slot is selected by the order of the `Time` elements. -/
def procStepSingle (st : ProcState) (t : TimeEntry) : ProcState :=
  let timeVal := parseTime t.time
  let timeStatus := checkStatus t.time t.status
  let st :=
    if timeStatus = "DNF" then { st with dnf := true, status := "DNF" }
    else if timeStatus = "DSQ" then { st with dsq := true, status := "DSQ" }
    else st
  if t.runIndex = 0 then { st with run1 := timeVal }
  else if t.runIndex = 1 then { st with run2 := timeVal }
  else st

/-- Addition of two `JSVal`s that are known not to be `null` at the use
site (`run1 + run2`); `NaN` propagates. -/
def jsAdd : JSVal → JSVal → JSVal
  | JSVal.num a, JSVal.num b => JSVal.num (a + b)
  | _, _ => JSVal.nan

/-- Model of `XMLParser.processRacerTimes`: fold the per-entry loop over
the time entries, then compute `totalTime`, which stays `null` whenever
`dnf` or `dsq` is set or `run1` is `null`. -/
def processRacerTimes (times : List TimeEntry) (raceType : ℤ) : ProcessedTimes :=
  let st0 : ProcState :=
    { run1 := JSVal.null, run2 := JSVal.null, dnf := false, dsq := false, status := "OK" }
  let st :=
    if raceType = 1 then times.foldl procStepDual st0
    else times.foldl procStepSingle st0
  let totalTime :=
    if ¬ st.dnf ∧ ¬ st.dsq ∧ st.run1 ≠ JSVal.null then
      if st.run2 ≠ JSVal.null then jsAdd st.run1 st.run2 else st.run1
    else JSVal.null
  { run1 := st.run1, run2 := st.run2, totalTime := totalTime,
    status := st.status, dnf := st.dnf, dsq := st.dsq }

/-- Racer record as produced by the parser and enriched in place by the
scoring passes.  Nullable numeric fields are `Option ℤ`/`Option ℕ`; the
fields a fresh parse leaves `undefined` carry the neutral values the
scoring code would read through `|| 0` or overwrite before use.  `team`
is `Option String` so that the `null`/`undefined` case of `isScoringTeam`
is representable; the parser itself always produces `some` of a (possibly
empty) string.  The `class` property is named `cls` (`class` is reserved
in Lean). -/
structure Racer where
  firstName : String := ""
  lastName : String := ""
  bib : String := ""
  team : Option String := none
  gender : String := ""
  cls : String := ""
  run1 : Option ℤ := none
  run2 : Option ℤ := none
  totalTime : Option ℤ := none
  dnf : Bool := false
  dsq : Bool := false
  status : String := "OK"
  run1Rank : Option ℕ := none
  run2Rank : Option ℕ := none
  place : Option ℕ := none
  points : ℕ := 0
  fieldSize : ℕ := 0
  run1Count : ℕ := 0
  run2Count : ℕ := 0
  teamPlace : Option ℕ := none
  teamPoints : ℕ := 0
  teamFieldSize : ℕ := 0
  isScoring : Bool := false
deriving DecidableEq, Repr

/-- The fixed allow-list `Scoring.SCORING_TEAMS`. -/
def SCORING_TEAMS : List String :=
  ["St Cloud Breakaways", "Lakes Area", "Brainerd", "Annandale", "Detroit Lakes"]

/-- Model of `Scoring.isScoringTeam`: `null`, `undefined` and the empty
string are falsy and yield `false`; otherwise the lower-cased trimmed
team matches when it contains, or is contained in, some allow-listed
name (case-insensitive bidirectional substring test). -/
def isScoringTeam (team : Option String) : Bool :=
  match team with
  | none => false
  | some t =>
    if t = "" then false
    else
      let normalizedTeam := jsTrim (jsLower t)
      SCORING_TEAMS.any fun sct =>
        jsIncludes normalizedTeam (jsLower sct) || jsIncludes (jsLower sct) normalizedTeam

/-- Model of `Scoring.getPointsForPlace`: zero outside `1..fieldSize`,
otherwise `fieldSize - place + 1` (the call sites only pass positive
places, so `ℕ` with a zero test models the JavaScript `place <= 0`
guard). -/
def getPointsForPlace (place fieldSize : ℕ) : ℕ :=
  if place = 0 ∨ place > fieldSize then 0 else fieldSize - place + 1

/-- Model of `Scoring.matchesClass`: an empty class code is falsy; the
`Varsity` filter accepts `V`, `VM`, `VF`, `VARSITY`; the `JV` filter
accepts `JV`, `JVM`, `JVF`; any other filter needs an exact normalized
match. -/
def matchesClass (racerClass filterClass : String) : Bool :=
  if racerClass = "" then false
  else
    let normalized := jsTrim (jsUpper racerClass)
    let filter := jsTrim (jsUpper filterClass)
    if filter = "VARSITY" then
      normalized = "V" ∨ normalized = "VM" ∨ normalized = "VF" ∨ normalized = "VARSITY"
    else if filter = "JV" then
      normalized = "JV" ∨ normalized = "JVM" ∨ normalized = "JVF"
    else normalized = filter

/-- Comparator relation of the finisher sorts: ascending by `totalTime`
(`(a, b) => a.totalTime - b.totalTime`); every sorted racer has a
non-null time, so the `getD` default is never relevant. -/
def timeLE (a b : Racer) : Prop := a.totalTime.getD 0 ≤ b.totalTime.getD 0

instance : DecidableRel timeLE := fun a b => by unfold timeLE; infer_instance

instance : IsTotal Racer timeLE := ⟨fun a b => Int.le_total _ _⟩

instance : IsTrans Racer timeLE := ⟨fun _ _ _ => Int.le_trans⟩

/-- Comparator relation of the final display sort of
`calculateIndividualResults`: null places sort last, equal (and
null-null) pairs compare equal, otherwise ascending by place. -/
def placeLE (a b : Racer) : Prop :=
  match a.place, b.place with
  | none, none => True
  | none, some _ => False
  | some _, none => True
  | some x, some y => x ≤ y

instance : DecidableRel placeLE := fun a b => by
  unfold placeLE
  rcases a.place with _ | x <;> rcases b.place with _ | y <;> infer_instance

instance : IsTotal Racer placeLE := ⟨fun a b => by
  unfold placeLE
  rcases a.place with _ | x <;> rcases b.place with _ | y <;> simp [Nat.le_total]⟩

instance : IsTrans Racer placeLE := ⟨fun a b c => by
  unfold placeLE
  rcases a.place with _ | x <;> rcases b.place with _ | y <;>
    rcases c.place with _ | z <;> simp <;> omega⟩

/-- Tag every element of a list with its position, starting at `k`;
models object identity across the in-place run-ranking mutation. -/
def tagIdx (k : ℕ) : List α → List (ℕ × α)
  | [] => []
  | a :: as => (k, a) :: tagIdx (k + 1) as

/-- Ranks assigned by the run-ranking loops of
`calculateRunRankings`, given the already sorted values: the first value
gets rank 1, a value equal to its predecessor inherits the predecessor's
rank, otherwise the rank is the 0-based index plus 1 (`run1Rank` is set
to `index + 2` after each step). -/
def ranksOfSorted : List ℤ → ℕ → Option (ℤ × ℕ) → List ℕ
  | [], _, _ => []
  | v :: rest, idx, prev =>
    let r :=
      match prev with
      | some (pv, pr) => if v = pv then pr else idx + 1
      | none => idx + 1
    r :: ranksOfSorted rest (idx + 1) (some (v, r))

/-- Ascending comparison of tagged racers by `run1`. -/
def run1LE (a b : ℕ × Racer) : Prop := a.2.run1.getD 0 ≤ b.2.run1.getD 0

instance : DecidableRel run1LE := fun a b => by unfold run1LE; infer_instance

instance : IsTotal (ℕ × Racer) run1LE := ⟨fun a b => Int.le_total _ _⟩

instance : IsTrans (ℕ × Racer) run1LE := ⟨fun _ _ _ => Int.le_trans⟩

/-- Ascending comparison of tagged racers by `run2`. -/
def run2LE (a b : ℕ × Racer) : Prop := a.2.run2.getD 0 ≤ b.2.run2.getD 0

instance : DecidableRel run2LE := fun a b => by unfold run2LE; infer_instance

instance : IsTotal (ℕ × Racer) run2LE := ⟨fun a b => Int.le_total _ _⟩

instance : IsTrans (ℕ × Racer) run2LE := ⟨fun _ _ _ => Int.le_trans⟩

/-- Write-back of the run-ranking mutation for one position-tagged
racer: look the position up in the two rank association lists and set
the rank fields that were assigned. -/
def rankUpdateFn (run1Assoc run2Assoc : List ((ℕ × Racer) × ℕ))
    (p : ℕ × Racer) : Racer :=
  let r := p.2
  let r :=
    match (run1Assoc.filter fun q => q.1.1 = p.1).head? with
    | some q => { r with run1Rank := some q.2 }
    | none => r
  match (run2Assoc.filter fun q => q.1.1 = p.1).head? with
  | some q => { r with run2Rank := some q.2 }
  | none => r

/-- Model of `Scoring.calculateRunRankings`: racers of the gender whose
`run1` (respectively `run2`) is non-null are sorted ascending and
receive skip-style ranks; both rank fields are written back onto the
racer records, identified by their position in the input list.  The
returned counts are the sizes of the two ranked pools. -/
def applyRunRankings (racers : List Racer) (gender : String) :
    List Racer × ℕ × ℕ :=
  let tagged := tagIdx 0 racers
  let run1Racers := (tagged.filter fun p =>
    p.2.gender = gender ∧ p.2.run1 ≠ none).insertionSort run1LE
  let run1Assoc := run1Racers.zip
    (ranksOfSorted (run1Racers.map fun p => p.2.run1.getD 0) 0 none)
  let run2Racers := (tagged.filter fun p =>
    p.2.gender = gender ∧ p.2.run2 ≠ none).insertionSort run2LE
  let run2Assoc := run2Racers.zip
    (ranksOfSorted (run2Racers.map fun p => p.2.run2.getD 0) 0 none)
  (tagged.map (rankUpdateFn run1Assoc run2Assoc), run1Racers.length, run2Racers.length)

/-- The place-and-points loop of `calculateIndividualResults` after the
first iteration: `idx` is the 0-based index of the current racer,
`(pt, ppl, ppts)` the previous racer's total time, place and points;
`currentPlace` always equals `idx + 1` when read. -/
def assignIndGo : List Racer → ℕ → Option ℤ → ℕ → ℕ → ℕ → ℕ → ℕ → List Racer
  | [], _, _, _, _, _, _, _ => []
  | r :: rest, idx, pt, ppl, ppts, fs, c1, c2 =>
    let pl := if r.totalTime = pt then ppl else idx + 1
    let pts := if r.totalTime = pt then ppts else getPointsForPlace (idx + 1) fs
    { r with place := some pl, points := pts, fieldSize := fs,
             run1Count := c1, run2Count := c2 } ::
      assignIndGo rest (idx + 1) r.totalTime pl pts fs c1 c2

/-- The whole place-and-points loop of `calculateIndividualResults` over
the time-sorted finishers (the `index > 0` tie test never fires on the
first racer, who always gets place 1). -/
def assignIndividual (l : List Racer) (fs c1 c2 : ℕ) : List Racer :=
  match l with
  | [] => []
  | r :: rest =>
    let pts := getPointsForPlace 1 fs
    { r with place := some 1, points := pts, fieldSize := fs,
             run1Count := c1, run2Count := c2 } ::
      assignIndGo rest 1 r.totalTime 1 pts fs c1 c2

/-- The non-finisher update of `calculateIndividualResults`. -/
def clearPlace (fs c1 c2 : ℕ) (r : Racer) : Racer :=
  { r with place := none, points := 0, fieldSize := fs,
           run1Count := c1, run2Count := c2 }

/-- The finisher test of the scoring passes: non-null `totalTime` and
neither `dnf` nor `dsq`. -/
def isFinisher (r : Racer) : Prop := r.totalTime ≠ none ∧ ¬ r.dnf ∧ ¬ r.dsq

instance : DecidablePred isFinisher := fun r => by unfold isFinisher; infer_instance

/-- Field size used by individual scoring: racers of the gender from
allow-listed teams (`scoringTeamRacers.length`). -/
def genderFieldSizeOf (racers : List Racer) (gender : String) : ℕ :=
  (racers.filter fun r => r.gender = gender ∧ isScoringTeam r.team).length

/-- The racer list after the run-ranking mutation (`racers` seen through
`calculateRunRankings`). -/
def rankedOf (racers : List Racer) (gender : String) : List Racer :=
  (applyRunRankings racers gender).1

/-- The `run1Count` returned by `calculateRunRankings`. -/
def run1CountOf (racers : List Racer) (gender : String) : ℕ :=
  (applyRunRankings racers gender).2.1

/-- The `run2Count` returned by `calculateRunRankings`. -/
def run2CountOf (racers : List Racer) (gender : String) : ℕ :=
  (applyRunRankings racers gender).2.2

/-- The `scoringTeamRacers` pool (gender plus allow-list). -/
def scoringTeamOf (racers : List Racer) (gender : String) : List Racer :=
  (rankedOf racers gender).filter fun r =>
    r.gender = gender ∧ isScoringTeam r.team

/-- The allow-listed finishers, sorted ascending by total time. -/
def sortedFinishersOf (racers : List Racer) (gender : String) : List Racer :=
  ((scoringTeamOf racers gender).filter fun r => isFinisher r).insertionSort timeLE

/-- The allow-listed finishers with place, points, field size and run
counts assigned. -/
def placedOf (racers : List Racer) (gender : String) : List Racer :=
  assignIndividual (sortedFinishersOf racers gender)
    (genderFieldSizeOf racers gender)
    (run1CountOf racers gender) (run2CountOf racers gender)

/-- The allow-listed non-finishers with the null-place update applied. -/
def nonFinishersOf (racers : List Racer) (gender : String) : List Racer :=
  ((scoringTeamOf racers gender).filter fun r => ¬ isFinisher r).map
    (clearPlace (genderFieldSizeOf racers gender)
      (run1CountOf racers gender) (run2CountOf racers gender))

/-- The non-allow-listed racers of the gender with the null-place update
applied. -/
def nonScoringOf (racers : List Racer) (gender : String) : List Racer :=
  ((rankedOf racers gender).filter fun r =>
    r.gender = gender ∧ ¬ isScoringTeam r.team).map
    (clearPlace (genderFieldSizeOf racers gender)
      (run1CountOf racers gender) (run2CountOf racers gender))

/-- The concatenation `[...scoringFinishers, ...scoringNonFinishers,
...nonScoringRacers]` built just before the final display sort. -/
def preSortResults (racers : List Racer) (gender : String) : List Racer :=
  placedOf racers gender ++ nonFinishersOf racers gender ++ nonScoringOf racers gender

/-- Model of `Scoring.calculateIndividualResults`.  The run-ranking
mutation is applied to every racer first (it writes only the two rank
fields, which no later test reads), then the gender pool is split into
allow-listed finishers, allow-listed non-finishers and non-allow-listed
racers; finishers are sorted by total time and receive place and points
against the allow-listed field size; the other two groups get a null
place and zero points; the final display sort orders by place with null
places last, and an optional class filter is applied to the final list
(`raceClass` of `none` or the falsy empty string means no filter). -/
def calculateIndividualResults (racers : List Racer) (gender : String)
    (raceClass : Option String) : List Racer :=
  let results := (preSortResults racers gender).insertionSort placeLE
  match raceClass with
  | none => results
  | some c => if c = "" then results else results.filter fun r => matchesClass r.cls c

/-- Team standing record built by `calculateTeamStandings`. -/
structure TeamStanding where
  name : String
  racers : List Racer
  scoringRacers : List Racer
  totalPoints : ℕ
  place : ℕ
deriving DecidableEq, Repr

/-- The team place-and-points loop of `calculateTeamStandings` after the
first iteration (same skip-rank scheme as the individual loop, writing
the team fields). -/
def assignTeamGo : List Racer → ℕ → Option ℤ → ℕ → ℕ → ℕ → List Racer
  | [], _, _, _, _, _ => []
  | r :: rest, idx, pt, ppl, ppts, fs =>
    let pl := if r.totalTime = pt then ppl else idx + 1
    let pts := if r.totalTime = pt then ppts else getPointsForPlace (idx + 1) fs
    { r with teamPlace := some pl, teamPoints := pts, teamFieldSize := fs } ::
      assignTeamGo rest (idx + 1) r.totalTime pl pts fs

/-- The whole team place-and-points loop over the time-sorted finishers
of the gender-and-class pool. -/
def assignTeam (l : List Racer) (fs : ℕ) : List Racer :=
  match l with
  | [] => []
  | r :: rest =>
    let pts := getPointsForPlace 1 fs
    { r with teamPlace := some 1, teamPoints := pts, teamFieldSize := fs } ::
      assignTeamGo rest 1 r.totalTime 1 pts fs

/-- One step of the team grouping of `calculateTeamStandings`: racers
with a falsy team string are skipped, otherwise the racer is appended to
its team's member list (insertion-ordered, as JavaScript object keys
are). -/
def addToTeam (m : List (String × List Racer)) (r : Racer) : List (String × List Racer) :=
  match r.team with
  | none => m
  | some t =>
    if t = "" then m
    else if m.any fun p => p.1 = t then
      m.map fun p => if p.1 = t then (p.1, p.2 ++ [r]) else p
    else m ++ [(t, [r])]

/-- The team grouping loop over finishers then non-finishers. -/
def groupByTeam (rs : List Racer) : List (String × List Racer) :=
  rs.foldl addToTeam []

/-- Descending comparison of team members by `teamPoints`
(`(b.teamPoints || 0) - (a.teamPoints || 0)`). -/
def teamMemberLE (a b : Racer) : Prop := b.teamPoints ≤ a.teamPoints

instance : DecidableRel teamMemberLE := fun a b => by
  unfold teamMemberLE; infer_instance

instance : IsTotal Racer teamMemberLE := ⟨fun a b => Nat.le_total _ _⟩

instance : IsTrans Racer teamMemberLE := ⟨fun _ _ _ h h' => Nat.le_trans h' h⟩

/-- Descending comparison of team standings by `totalPoints`. -/
def standLE (a b : TeamStanding) : Prop := b.totalPoints ≤ a.totalPoints

instance : DecidableRel standLE := fun a b => by unfold standLE; infer_instance

instance : IsTotal TeamStanding standLE := ⟨fun a b => Nat.le_total _ _⟩

instance : IsTrans TeamStanding standLE := ⟨fun _ _ _ h h' => Nat.le_trans h' h⟩

/-- The `standings.forEach((team, index) => team.place = index + 1)`
loop: places are consecutive starting at `k`, with no tie handling. -/
def assignStandPlaces (k : ℕ) : List TeamStanding → List TeamStanding
  | [] => []
  | t :: ts => { t with place := k } :: assignStandPlaces (k + 1) ts

/-- Model of `Scoring.calculateTeamStandings`: the gender-and-class pool
is the field; finishers sorted by total time receive team places and
points against the pool size; all pool racers are grouped by team name
(falsy team strings are skipped); each team's members are sorted
descending by team points, the up-to-`topN` positive scorers form the
scoring roster (marked `isScoring`) and their points are summed; teams
are sorted descending by total and receive consecutive places. -/
def calculateTeamStandings (racers : List Racer) (gender : String)
    (raceClass : String) (topN : ℕ) : List TeamStanding :=
  let filtered := racers.filter fun r =>
    r.gender = gender ∧ matchesClass r.cls raceClass
  let classFieldSize := filtered.length
  let finishers := (filtered.filter fun r => isFinisher r).insertionSort timeLE
  let placed := assignTeam finishers classFieldSize
  let nonFinishers := (filtered.filter fun r => ¬ isFinisher r).map fun r =>
    { r with teamPlace := none, teamPoints := 0, teamFieldSize := classFieldSize }
  let grouped := groupByTeam (placed ++ nonFinishers)
  let teams := grouped.map fun p =>
    let sortedMembers := p.2.insertionSort teamMemberLE
    let scoring := ((sortedMembers.filter fun r => 0 < r.teamPoints).take topN).map
      fun r => { r with isScoring := true }
    { name := p.1, racers := sortedMembers, scoringRacers := scoring,
      totalPoints := scoring.foldl (fun s r => s + r.teamPoints) 0,
      place := 0 : TeamStanding }
  assignStandPlaces 1 (teams.insertionSort standLE)

/-- Per-event result row of an accumulated individual athlete. -/
structure IndEventResult where
  eventName : String
  eventDate : String
  points : ℕ
  place : Option ℕ
  fieldSize : ℕ
deriving DecidableEq, Repr

/-- Per-event result row of an accumulated team. -/
structure TeamEventResult where
  eventName : String
  eventDate : String
  points : ℕ
  place : ℕ
deriving DecidableEq, Repr

/-- Accumulated season entry of one athlete (`individualTotals[key]`). -/
structure IndividualTotal where
  firstName : String := ""
  lastName : String := ""
  team : Option String := none
  gender : String := ""
  cls : String := ""
  eventResults : List IndEventResult := []
  totalPoints : ℕ := 0
  countedResults : List IndEventResult := []
  droppedResult : Option IndEventResult := none
  eventCount : ℕ := 0
  totalEventsInSeason : ℕ := 0
  place : ℕ := 0
deriving DecidableEq, Repr

/-- Accumulated season entry of one team (`teamTotals[name]`). -/
structure TeamTotal where
  name : String := ""
  eventResults : List TeamEventResult := []
  totalPoints : ℕ := 0
  countedResults : List TeamEventResult := []
  droppedResult : Option TeamEventResult := none
  eventCount : ℕ := 0
  totalEventsInSeason : ℕ := 0
  place : ℕ := 0
deriving DecidableEq, Repr

/-- One parsed race file (only the racer list matters to scoring). -/
structure Race where
  racers : List Racer
deriving DecidableEq, Repr

/-- One season event: a date-keyed group of race files. -/
structure Event where
  name : String := ""
  date : String := ""
  races : List Race := []
deriving DecidableEq, Repr

/-- Racers of all race files of an event, in file order (the season code
shallow-copies each record; copies are value-level identities here, and
the heap model below accounts for the aliasing effects). -/
def allRacersOf (ev : Event) : List Racer :=
  (ev.races.map Race.racers).flatten

/-- Insertion-ordered upsert into a string-keyed association list,
modelling `if (!obj[k]) obj[k] = init; f(obj[k])` on a JavaScript
object. -/
def upsertWith {E : Type} (m : List (String × E)) (k : String) (init : E)
    (f : E → E) : List (String × E) :=
  if m.any fun p => p.1 = k then
    m.map fun p => if p.1 = k then (p.1, f p.2) else p
  else m ++ [(k, f init)]

/-- String interpolation of a possibly absent team
(`${racer.team}` renders `undefined` when the field is missing). -/
def optTeamStr : Option String → String
  | none => "undefined"
  | some s => s

/-- The individual accumulation key
`firstName.trim() + "_" + lastName.trim() + "_" + team`; the team
component is NOT trimmed in the source. -/
def indKeyOf (r : Racer) : String :=
  jsTrim r.firstName ++ "_" ++ jsTrim r.lastName ++ "_" ++ optTeamStr r.team

/-- Fresh accumulated entry created on an athlete's first scoring
appearance. -/
def freshIndOf (r : Racer) : IndividualTotal :=
  { firstName := jsTrim r.firstName, lastName := jsTrim r.lastName,
    team := r.team, gender := r.gender, cls := r.cls, eventResults := [] }

/-- Event-result row pushed for one scoring appearance. -/
def indResOf (ev : Event) (r : Racer) : IndEventResult :=
  { eventName := ev.name, eventDate := ev.date, points := r.points,
    place := r.place, fieldSize := r.fieldSize }

/-- Appending one event-result row to an accumulated athlete. -/
def pushIndRes (res : IndEventResult) (e : IndividualTotal) : IndividualTotal :=
  { e with eventResults := e.eventResults ++ [res] }

/-- The individual contributions of one event: its scored results with
zero-point rows skipped, each carrying the accumulation key, the fresh
entry used on first occurrence, and the pushed row. -/
def indContribsOfEvent (ev : Event) (gender : String) (raceClass : Option String) :
    List (String × IndividualTotal × IndEventResult) :=
  ((calculateIndividualResults (allRacersOf ev) gender raceClass).filter
    fun r => r.points ≠ 0).map fun r => (indKeyOf r, freshIndOf r, indResOf ev r)

/-- One accumulation step for individuals. -/
def indUpsert (m : List (String × IndividualTotal))
    (cb : String × IndividualTotal × IndEventResult) :
    List (String × IndividualTotal) :=
  upsertWith m cb.1 cb.2.1 (pushIndRes cb.2.2)

/-- The individual accumulation loop over the whole season. -/
def seasonIndAccum (events : List Event) (gender : String)
    (raceClass : Option String) : List (String × IndividualTotal) :=
  events.foldl (fun m ev => (indContribsOfEvent ev gender raceClass).foldl indUpsert m) []

/-- Effective class used for season team standings:
`raceClass || 'Varsity'` (the falsy empty string also defaults). -/
def effectiveClassOf (raceClass : Option String) : String :=
  match raceClass with
  | none => "Varsity"
  | some c => if c = "" then "Varsity" else c

/-- Event-result row pushed for one team in one event (teams are
recorded even with zero points). -/
def teamResOf (ev : Event) (t : TeamStanding) : TeamEventResult :=
  { eventName := ev.name, eventDate := ev.date, points := t.totalPoints,
    place := t.place }

/-- Fresh accumulated entry for a team's first appearance. -/
def freshTeamOf (t : TeamStanding) : TeamTotal :=
  { name := t.name, eventResults := [] }

/-- Appending one event-result row to an accumulated team. -/
def pushTeamRes (res : TeamEventResult) (e : TeamTotal) : TeamTotal :=
  { e with eventResults := e.eventResults ++ [res] }

/-- The team contributions of one event. -/
def teamContribsOfEvent (ev : Event) (gender : String) (raceClass : Option String) :
    List (String × TeamTotal × TeamEventResult) :=
  (calculateTeamStandings (allRacersOf ev) gender (effectiveClassOf raceClass) 4).map
    fun t => (t.name, freshTeamOf t, teamResOf ev t)

/-- One accumulation step for teams. -/
def teamUpsert (m : List (String × TeamTotal))
    (cb : String × TeamTotal × TeamEventResult) : List (String × TeamTotal) :=
  upsertWith m cb.1 cb.2.1 (pushTeamRes cb.2.2)

/-- The team accumulation loop over the whole season. -/
def seasonTeamAccum (events : List Event) (gender : String)
    (raceClass : Option String) : List (String × TeamTotal) :=
  events.foldl (fun m ev => (teamContribsOfEvent ev gender raceClass).foldl teamUpsert m) []

/-- Descending comparison of individual event-result rows by points. -/
def indResLE (a b : IndEventResult) : Prop := b.points ≤ a.points

instance : DecidableRel indResLE := fun a b => by unfold indResLE; infer_instance

instance : IsTotal IndEventResult indResLE := ⟨fun a b => Nat.le_total _ _⟩

instance : IsTrans IndEventResult indResLE := ⟨fun _ _ _ h h' => Nat.le_trans h' h⟩

/-- Descending comparison of team event-result rows by points. -/
def teamResLE (a b : TeamEventResult) : Prop := b.points ≤ a.points

instance : DecidableRel teamResLE := fun a b => by unfold teamResLE; infer_instance

instance : IsTotal TeamEventResult teamResLE := ⟨fun a b => Nat.le_total _ _⟩

instance : IsTrans TeamEventResult teamResLE := ⟨fun _ _ _ h h' => Nat.le_trans h' h⟩

/-- Descending comparison of accumulated athletes by season total. -/
def indTotalLE (a b : IndividualTotal) : Prop := b.totalPoints ≤ a.totalPoints

instance : DecidableRel indTotalLE := fun a b => by unfold indTotalLE; infer_instance

instance : IsTotal IndividualTotal indTotalLE := ⟨fun a b => Nat.le_total _ _⟩

instance : IsTrans IndividualTotal indTotalLE := ⟨fun _ _ _ h h' => Nat.le_trans h' h⟩

/-- Descending comparison of accumulated teams by season total. -/
def teamTotalLE (a b : TeamTotal) : Prop := b.totalPoints ≤ a.totalPoints

instance : DecidableRel teamTotalLE := fun a b => by unfold teamTotalLE; infer_instance

instance : IsTotal TeamTotal teamTotalLE := ⟨fun a b => Nat.le_total _ _⟩

instance : IsTrans TeamTotal teamTotalLE := ⟨fun _ _ _ h h' => Nat.le_trans h' h⟩

/-- The drop computation of `calculateSeasonStandings` for one
accumulated athlete: sort the rows descending by points; drop the last
sorted row exactly when the row count reaches the season's event count
and the season has more than one event. -/
def applyDropInd (totalEvents : ℕ) (ind : IndividualTotal) : IndividualTotal :=
  let sorted := ind.eventResults.insertionSort indResLE
  let shouldDrop := totalEvents ≤ sorted.length ∧ 1 < totalEvents
  let counted := if shouldDrop then sorted.dropLast else sorted
  { ind with
    totalPoints := counted.foldl (fun s r => s + r.points) 0,
    countedResults := counted,
    droppedResult := if shouldDrop then sorted.getLast? else none,
    eventCount := sorted.length,
    totalEventsInSeason := totalEvents }

/-- The identical drop computation for one accumulated team. -/
def applyDropTeam (totalEvents : ℕ) (team : TeamTotal) : TeamTotal :=
  let sorted := team.eventResults.insertionSort teamResLE
  let shouldDrop := totalEvents ≤ sorted.length ∧ 1 < totalEvents
  let counted := if shouldDrop then sorted.dropLast else sorted
  { team with
    totalPoints := counted.foldl (fun s r => s + r.points) 0,
    countedResults := counted,
    droppedResult := if shouldDrop then sorted.getLast? else none,
    eventCount := sorted.length,
    totalEventsInSeason := totalEvents }

/-- The `forEach((ind, index) => ind.place = index + 1)` loop for
athletes. -/
def assignIndPlaces (k : ℕ) : List IndividualTotal → List IndividualTotal
  | [] => []
  | t :: ts => { t with place := k } :: assignIndPlaces (k + 1) ts

/-- The same loop for accumulated teams. -/
def assignTeamTotalPlaces (k : ℕ) : List TeamTotal → List TeamTotal
  | [] => []
  | t :: ts => { t with place := k } :: assignTeamTotalPlaces (k + 1) ts

/-- Return value of `calculateSeasonStandings`. -/
structure SeasonStandings where
  teams : List TeamTotal
  individuals : List IndividualTotal
  eventCount : ℕ
  countedEvents : ℕ
deriving DecidableEq, Repr

/-- Model of `Scoring.calculateSeasonStandings`: per event, the racers
of all races are scored individually (skipping zero-point rows) and as
teams (always recorded) into insertion-ordered accumulators; each
accumulated entity independently drops its worst event when it has rows
for every event of a multi-event season; teams and individuals are then
sorted descending by season total and receive consecutive places. -/
def calculateSeasonStandings (events : List Event) (gender : String)
    (raceClass : Option String) : SeasonStandings :=
  let totalEvents := events.length
  let teamVals := (seasonTeamAccum events gender raceClass).map
    fun p => applyDropTeam totalEvents p.2
  let indVals := (seasonIndAccum events gender raceClass).map
    fun p => applyDropInd totalEvents p.2
  { teams := assignTeamTotalPlaces 1 (teamVals.insertionSort teamTotalLE),
    individuals := assignIndPlaces 1 (indVals.insertionSort indTotalLE),
    eventCount := totalEvents,
    countedEvents := if 1 < totalEvents then totalEvents - 1 else totalEvents }

/-! Heap model of the in-place mutation.  The scoring functions mutate
the racer objects handed to them; `calculateSeasonStandings` instead
pushes a shallow copy `{...racer}` of every record before scoring an
event.  Objects are modelled as references (`ℕ`) into a heap, the
scoring passes as heap transformers that write the updated records back
at the references they were given, and the season pass as allocation of
fresh references followed by scoring of the copies. -/

/-- Object heap: racer records addressed by reference. -/
def Heap : Type := ℕ → Racer

/-- Write one record. -/
def hUpdate (σ : Heap) (i : ℕ) (r : Racer) : Heap :=
  fun j => if j = i then r else σ j

/-- Write a batch of records in order. -/
def writeAll (σ : Heap) (ps : List (ℕ × Racer)) : Heap :=
  ps.foldl (fun σ p => hUpdate σ p.1 p.2) σ

/-- Ascending comparison of ref-tagged racers by `totalTime`. -/
def timeLEP (a b : ℕ × Racer) : Prop := timeLE a.2 b.2

instance : DecidableRel timeLEP := fun a b => by unfold timeLEP; infer_instance

instance : IsTotal (ℕ × Racer) timeLEP := ⟨fun a b => Int.le_total _ _⟩

instance : IsTrans (ℕ × Racer) timeLEP := ⟨fun _ _ _ => Int.le_trans⟩

/-- Descending comparison of ref-tagged racers by `teamPoints`. -/
def teamMemberLEP (a b : ℕ × Racer) : Prop := teamMemberLE a.2 b.2

instance : DecidableRel teamMemberLEP := fun a b => by
  unfold teamMemberLEP; infer_instance

instance : IsTotal (ℕ × Racer) teamMemberLEP := ⟨fun a b => Nat.le_total _ _⟩

instance : IsTrans (ℕ × Racer) teamMemberLEP :=
  ⟨fun _ _ _ h h' => Nat.le_trans h' h⟩

/-- Heap transformer of `calculateIndividualResults`: the records at the
given references are read, the run-ranking updates and the
place/points/field assignments of the pure model are computed, and every
updated record is written back at its reference. -/
def calcIndividualH (σ : Heap) (refs : List ℕ) (gender : String) : Heap :=
  let racers := refs.map σ
  let rr := applyRunRankings racers gender
  let genderFieldSize := genderFieldSizeOf racers gender
  let run1Count := rr.2.1
  let run2Count := rr.2.2
  let tagged := refs.zip rr.1
  let scoringTeam := tagged.filter fun p =>
    p.2.gender = gender ∧ isScoringTeam p.2.team
  let fin := (scoringTeam.filter fun p => isFinisher p.2).insertionSort timeLEP
  let placedPairs := (fin.map Prod.fst).zip
    (assignIndividual (fin.map Prod.snd) genderFieldSize run1Count run2Count)
  let nonFinPairs := (scoringTeam.filter fun p => ¬ isFinisher p.2).map
    fun p => (p.1, clearPlace genderFieldSize run1Count run2Count p.2)
  let nonScoringPairs := (tagged.filter fun p =>
    p.2.gender = gender ∧ ¬ isScoringTeam p.2.team).map
    fun p => (p.1, clearPlace genderFieldSize run1Count run2Count p.2)
  writeAll (writeAll σ tagged) (placedPairs ++ nonFinPairs ++ nonScoringPairs)

/-- Heap transformer of `calculateTeamStandings`: team place and points
writes for the gender-and-class pool, then the `isScoring` marks on each
team's scoring roster. -/
def calcTeamH (σ : Heap) (refs : List ℕ) (gender : String) (raceClass : String)
    (topN : ℕ) : Heap :=
  let tagged := refs.zip (refs.map σ)
  let pool := tagged.filter fun p =>
    p.2.gender = gender ∧ matchesClass p.2.cls raceClass
  let classFieldSize := pool.length
  let fin := (pool.filter fun p => isFinisher p.2).insertionSort timeLEP
  let placedPairs := (fin.map Prod.fst).zip
    (assignTeam (fin.map Prod.snd) classFieldSize)
  let nonFinPairs := (pool.filter fun p => ¬ isFinisher p.2).map fun p =>
    (p.1, { p.2 with teamPlace := none, teamPoints := 0,
                     teamFieldSize := classFieldSize })
  let σ' := writeAll σ (placedPairs ++ nonFinPairs)
  let marks := ((placedPairs ++ nonFinPairs).insertionSort teamMemberLEP).filter
    fun p => 0 < p.2.teamPoints
  writeAll σ' ((marks.take topN).map fun p => (p.1, { p.2 with isScoring := true }))

/-- Allocate shallow copies of the records at `srcs`, starting at the
fresh reference `n`; returns the heap, the next fresh reference and the
references of the copies. -/
def copyRacersH (σ : Heap) (n : ℕ) : List ℕ → Heap × ℕ × List ℕ
  | [] => (σ, n, [])
  | s :: ss =>
    let σ' := hUpdate σ n (σ s)
    let rec' := copyRacersH σ' (n + 1) ss
    (rec'.1, rec'.2.1, n :: rec'.2.2)

/-- One season event as seen by the heap model: the race files hold
references into the heap. -/
structure EventR where
  races : List (List ℕ)

/-- Heap effect of one iteration of the season event loop: copy every
racer of the event, then run the individual and team scoring passes on
the copies. -/
def seasonEventH (gender : String) (raceClass : Option String)
    (st : Heap × ℕ) (ev : EventR) : Heap × ℕ :=
  let srcs := ev.races.flatten
  let cpy := copyRacersH st.1 st.2 srcs
  let σ₁ := calcIndividualH cpy.1 cpy.2.2 gender
  let σ₂ := calcTeamH σ₁ cpy.2.2 gender (effectiveClassOf raceClass) 4
  (σ₂, cpy.2.1)

/-- Heap effect of `calculateSeasonStandings`: fold the per-event copy
and scoring over the season. -/
def calculateSeasonStandingsH (σ : Heap) (n : ℕ) (events : List EventR)
    (gender : String) (raceClass : Option String) : Heap × ℕ :=
  events.foldl (seasonEventH gender raceClass) (σ, n)

/-! Auxiliary definitions used only to state and prove properties. -/

/-- Erase every field written by the individual scoring pass (place,
points, field size, run counts, run ranks); two racers with equal
`unscored` projections are the same input record. -/
def unscored (r : Racer) : Racer :=
  { r with place := none, points := 0, fieldSize := 0,
           run1Count := 0, run2Count := 0,
           run1Rank := none, run2Rank := none }

/-- Sum of the points of individual event-result rows (the
`reduce((sum, r) => sum + r.points, 0)` of the season code). -/
def indPointsSum (l : List IndEventResult) : ℕ :=
  l.foldl (fun s r => s + r.points) 0

/-- Sum of the points of team event-result rows. -/
def teamPointsSum (l : List TeamEventResult) : ℕ :=
  l.foldl (fun s r => s + r.points) 0

/-- The accumulation key recomputed from an accumulated athlete's stored
fields (its name components are stored trimmed, the team verbatim). -/
def entryKey (e : IndividualTotal) : String :=
  e.firstName ++ "_" ++ e.lastName ++ "_" ++ optTeamStr e.team

/-- The accumulation key together with the accumulated event-result
rows of one season entry (the two components the accumulation loop
builds). -/
def keyRowsOf (e : IndividualTotal) : String × List IndEventResult :=
  (entryKey e, e.eventResults)

/-- All individual contributions of a season, in processing order. -/
def allIndContribs (events : List Event) (gender : String)
    (raceClass : Option String) : List (String × IndividualTotal × IndEventResult) :=
  (events.map fun ev => indContribsOfEvent ev gender raceClass).flatten

/-- All team contributions of a season, in processing order. -/
def allTeamContribs (events : List Event) (gender : String)
    (raceClass : Option String) : List (String × TeamTotal × TeamEventResult) :=
  (events.map fun ev => teamContribsOfEvent ev gender raceClass).flatten

/-- Keys of a contribution list in order of first occurrence (the key
order of a JavaScript object). -/
def firstOccKeys : List String → List String
  | [] => []
  | k :: ks => k :: firstOccKeys (ks.filter fun x => x ≠ k)
termination_by l => l.length
decreasing_by
  simp only [List.length_cons]
  exact Nat.lt_succ_of_le (List.length_filter_le _ _)

/-- The accumulated entry built from the group of contributions sharing
one key: the fresh entry of the first contribution, with every
contribution's row pushed. -/
def entryOfGroup {E R : Type} (push : R → E → E) (d : E)
    (g : List (String × E × R)) : E :=
  match g with
  | [] => d
  | c :: _ => g.foldl (fun e cb => push cb.2.2 e) c.2.1

/-- Canonical description of the accumulator after processing a
contribution list: one entry per distinct key in first-occurrence order,
each collecting its key's contributions. -/
def canonicalAccum {E R : Type} (push : R → E → E) (d : E)
    (cs : List (String × E × R)) : List (String × E) :=
  (firstOccKeys (cs.map Prod.fst)).map fun k =>
    (k, entryOfGroup push d (cs.filter fun c => c.1 = k))

/-! Concrete data used by witnesses and counterexamples. -/

/-- A finisher from an allow-listed team. -/
def wRacer (fn tm : String) (tt : Option ℤ) : Racer :=
  { firstName := fn, lastName := "Zed", team := some tm, gender := "M",
    cls := "V", totalTime := tt }

/-- The four-finisher tie example of the specification:
total times 61.00, 61.00, 62.00, 63.00 seconds. -/
def wFour : List Racer :=
  [wRacer "a" "Brainerd" (some 61000), wRacer "b" "Annandale" (some 61000),
   wRacer "c" "Lakes Area" (some 62000), wRacer "d" "Detroit Lakes" (some 63000)]

/-- Ten racers of gender M of whom six are from allow-listed teams. -/
def wTen : List Racer :=
  wFour ++
    [wRacer "e" "Brainerd" none,
     wRacer "f" "St Cloud Breakaways Ski Team" (some 70000),
     wRacer "g" "Otters" (some 50000), wRacer "h" "Foo" none,
     wRacer "i" "Bar" (some 1000), wRacer "j" "Baz" (some 2000)]

/-- A racer whose team string is a single space. -/
def wWsRacer : Racer :=
  { firstName := "w", lastName := "W", team := some " ", gender := "M",
    cls := "V", totalTime := some 5000 }

/-- A one-race event. -/
def wEvent (n : String) (rs : List Racer) : Event :=
  { name := n, date := n, races := [{ racers := rs }] }

/-- Five-event season: athlete `All` scores in all five events (worst in
event 5), athlete `Four` scores in only four. -/
def wSeason5 : List Event :=
  [wEvent "1" [wRacer "All" "Brainerd" (some 100), wRacer "Four" "Annandale" (some 200)],
   wEvent "2" [wRacer "All" "Brainerd" (some 100), wRacer "Four" "Annandale" (some 90)],
   wEvent "3" [wRacer "All" "Brainerd" (some 100), wRacer "Four" "Annandale" (some 80)],
   wEvent "4" [wRacer "All" "Brainerd" (some 100), wRacer "Four" "Annandale" (some 70)],
   wEvent "5" [wRacer "All" "Brainerd" (some 100)]]

/-- One-event season. -/
def wSeason1 : List Event := [wEvent "1" [wRacer "All" "Brainerd" (some 100)]]

/-- Two-event season in which the same athlete appears with team
`"Brainerd"` and then `"Brainerd "` (trailing space). -/
def wSeasonTrim : List Event :=
  [wEvent "E1" [wRacer "Ann" "Brainerd" (some 61000)],
   wEvent "E2" [wRacer "Ann" "Brainerd " (some 62000)]]

/-- Placeholder contribution used as a list-lookup default. -/
def wContribD : String × IndividualTotal × IndEventResult :=
  ("", {}, { eventName := "", eventDate := "", points := 0, place := none, fieldSize := 0 })

/-- One-event season with two athletes tied on points. -/
def wSeasonTie : List Event :=
  [wEvent "E1" [wRacer "Ann" "Brainerd" (some 61000), wRacer "Bob" "Annandale" (some 61000)]]

/-- A heap holding the same finisher at every reference. -/
def wHeap : Heap := fun _ => wRacer "a" "Brainerd" (some 61000)

/-- A one-event season over heap references (one race, one racer at
reference 0). -/
def wEventsR : List EventR := [{ races := [[0]] }]

/-- Time entries whose tokens are empty or non-finish markers. -/
def wNullTimes : List TimeEntry :=
  [{ course := "0", runIndex := 0, time := "", status := "1" },
   { course := "1", runIndex := 1, time := "DNF", status := "1" }]

/-- A time entry with a numeric token but DNF status code 2. -/
def wDnfTimes : List TimeEntry :=
  [{ course := "0", runIndex := 0, time := "61.00", status := "2" },
   { course := "1", runIndex := 1, time := "62.00", status := "1" }]

/-- A time entry whose token has four colon-separated components. -/
def wBadTimes : List TimeEntry :=
  [{ course := "0", runIndex := 0, time := "1:2:3:4", status := "1" }]

/-! Transfer lemmas: the run-ranking mutation writes only the two rank
fields, so filters, counts and projections that ignore those fields see
the original racer list. -/

theorem tagIdx_map_snd {α : Type _} : ∀ (k : ℕ) (l : List α),
    (tagIdx k l).map Prod.snd = l
  | _, [] => rfl
  | k, a :: as => by simp [tagIdx, tagIdx_map_snd (k + 1) as]

theorem tagIdx_filter_snd {α : Type _} (P : α → Bool) : ∀ (k : ℕ) (l : List α),
    ((tagIdx k l).filter fun p => P p.2).map Prod.snd = l.filter P
  | _, [] => rfl
  | k, a :: as => by
    by_cases h : P a <;>
      simp [tagIdx, List.filter_cons, h, tagIdx_filter_snd P (k + 1) as]

theorem rankUpdateFn_apply {β : Type _} (f : Racer → β)
    (hf : ∀ a b r, f { r with run1Rank := a, run2Rank := b } = f r)
    (A B : List ((ℕ × Racer) × ℕ)) (p : ℕ × Racer) :
    f (rankUpdateFn A B p) = f p.2 := by
  unfold rankUpdateFn
  rcases h1 : (A.filter fun q => q.1.1 = p.1).head? with _ | q <;>
    rcases h2 : (B.filter fun q => q.1.1 = p.1).head? with _ | q' <;>
      simp only [h1, h2]
  · exact hf _ _ _
  · exact hf _ _ _
  · exact hf _ _ _

theorem rankedOf_eq (racers : List Racer) (g : String) :
    ∃ A B, rankedOf racers g = (tagIdx 0 racers).map (rankUpdateFn A B) :=
  ⟨_, _, rfl⟩

theorem rankedOf_filter_map {β : Type _} (racers : List Racer) (g : String)
    (P : Racer → Bool) (f : Racer → β)
    (hP : ∀ a b r, P { r with run1Rank := a, run2Rank := b } = P r)
    (hf : ∀ a b r, f { r with run1Rank := a, run2Rank := b } = f r) :
    ((rankedOf racers g).filter P).map f = (racers.filter P).map f := by
  obtain ⟨A, B, hAB⟩ := rankedOf_eq racers g
  rw [hAB, List.filter_map, List.map_map]
  simp only [Function.comp_def]
  rw [List.filter_congr fun p _ => rankUpdateFn_apply P hP A B p]
  rw [List.map_congr_left fun p _ =>
    rankUpdateFn_apply f hf A B p]
  have h2 : ((tagIdx 0 racers).filter fun p => P p.2).map (fun p => f p.2) =
      (((tagIdx 0 racers).filter fun p => P p.2).map Prod.snd).map f := by
    rw [List.map_map]; rfl
  rw [h2, tagIdx_filter_snd]

theorem rankedOf_filter_length (racers : List Racer) (g : String)
    (P : Racer → Bool)
    (hP : ∀ a b r, P { r with run1Rank := a, run2Rank := b } = P r) :
    ((rankedOf racers g).filter P).length = (racers.filter P).length := by
  have h := rankedOf_filter_map racers g P (fun _ => ()) hP (fun _ _ _ => rfl)
  have := congrArg List.length h
  simpa using this

/-! Counting characterisation of the skip-rank loop: on a time-sorted
finisher list, the assigned place is one plus the number of strictly
faster finishers, and the points always follow the points-for-place
formula at that place. -/

theorem assignIndGo_spec (fs c1 c2 : ℕ) :
    ∀ (rest : List Racer) (idx : ℕ) (v : ℤ) (ppl : ℕ),
    rest.Sorted timeLE →
    (∀ r ∈ rest, r.totalTime ≠ none) →
    (∀ r ∈ rest, v ≤ r.totalTime.getD 0) →
    assignIndGo rest idx (some v) ppl (getPointsForPlace ppl fs) fs c1 c2 =
      rest.map fun r =>
        { r with
          place := some (if r.totalTime.getD 0 = v then ppl
            else idx + 1 + rest.countP fun s => s.totalTime.getD 0 < r.totalTime.getD 0),
          points := getPointsForPlace (if r.totalTime.getD 0 = v then ppl
            else idx + 1 + rest.countP fun s => s.totalTime.getD 0 < r.totalTime.getD 0) fs,
          fieldSize := fs, run1Count := c1, run2Count := c2 }
  | [], _, _, _, _, _, _ => rfl
  | r :: rest', idx, v, ppl, hs, hsome, hall => by
    obtain ⟨w, hw⟩ : ∃ w, r.totalTime = some w := by
      cases h : r.totalTime with
      | none => exact absurd h (hsome r (List.mem_cons_self r rest'))
      | some w => exact ⟨w, rfl⟩
    have hrsorted := List.sorted_cons.mp hs
    have hge : ∀ s ∈ rest', w ≤ s.totalTime.getD 0 := by
      intro s hsmem
      have := hrsorted.1 s hsmem
      simpa [timeLE, hw] using this
    have hsome' : ∀ s ∈ rest', s.totalTime ≠ none :=
      fun s h => hsome s (List.mem_cons_of_mem r h)
    have hcount0 : ∀ u : ℤ, u ≤ w →
        ((r :: rest').countP fun s => s.totalTime.getD 0 < u) = 0 := by
      intro u hu
      rw [List.countP_eq_zero]
      intro s hsmem
      rcases List.mem_cons.mp hsmem with h | h
      · subst h; simp [hw]; omega
      · have := hge s h; simp; omega
    have hcountcons : ∀ u : ℤ, w < u →
        ((r :: rest').countP fun x => x.totalTime.getD 0 < u) =
          1 + (rest'.countP fun x => x.totalTime.getD 0 < u) := by
      intro u hu
      rw [List.countP_cons]
      simp [hw, hu]
      omega
    have hvw : v ≤ w := by simpa [hw] using hall r (List.mem_cons_self r rest')
    rw [assignIndGo, List.map_cons, List.cons.injEq]
    by_cases htie : w = v
    · subst htie
      refine ⟨by simp [hw], ?_⟩
      have hpl : (if r.totalTime = some w then ppl else idx + 1) = ppl := by simp [hw]
      have hpts : (if r.totalTime = some w then getPointsForPlace ppl fs
          else getPointsForPlace (idx + 1) fs) = getPointsForPlace ppl fs := by simp [hw]
      rw [hpl, hpts, hw]
      rw [assignIndGo_spec fs c1 c2 rest' (idx + 1) w ppl hrsorted.2 hsome' hge]
      apply List.map_congr_left
      intro s hsmem
      obtain ⟨u, hu⟩ : ∃ u, s.totalTime = some u := by
        cases h : s.totalTime with
        | none => exact absurd h (hsome' s hsmem)
        | some u => exact ⟨u, rfl⟩
      by_cases hsv : u = w
      · simp [hu, hsv]
      · have hwu : w < u :=
          lt_of_le_of_ne (by simpa [hu] using hge s hsmem) (Ne.symm hsv)
        simp [hu, hsv, hcountcons u hwu, Nat.add_assoc]
        all_goals refine ⟨by omega, by congr 1; omega⟩
    · have hpl : (if r.totalTime = some v then ppl else idx + 1) = idx + 1 := by
        simp [hw, htie]
      have hpts : (if r.totalTime = some v then getPointsForPlace ppl fs
          else getPointsForPlace (idx + 1) fs) = getPointsForPlace (idx + 1) fs := by
        simp [hw, htie]
      rw [hpl, hpts, hw]
      refine ⟨by simp [hw, htie, hcount0 w le_rfl], ?_⟩
      rw [assignIndGo_spec fs c1 c2 rest' (idx + 1) w (idx + 1) hrsorted.2 hsome' hge]
      apply List.map_congr_left
      intro s hsmem
      obtain ⟨u, hu⟩ : ∃ u, s.totalTime = some u := by
        cases h : s.totalTime with
        | none => exact absurd h (hsome' s hsmem)
        | some u => exact ⟨u, rfl⟩
      have hwu : w ≤ u := by simpa [hu] using hge s hsmem
      by_cases hsw : u = w
      · have hsv : u ≠ v := by omega
        simp [hu, hsw, hsv, htie, hcount0 w le_rfl]
      · have hltwu : w < u := lt_of_le_of_ne hwu (Ne.symm hsw)
        have hsv : u ≠ v := by omega
        simp [hu, hsw, hsv, htie, hcountcons u hltwu, Nat.add_assoc]
        all_goals refine ⟨by omega, by congr 1; omega⟩

theorem assignIndividual_spec (l : List Racer) (fs c1 c2 : ℕ)
    (hs : l.Sorted timeLE) (hsome : ∀ r ∈ l, r.totalTime ≠ none) :
    assignIndividual l fs c1 c2 =
      l.map fun r =>
        { r with
          place := some (1 + l.countP fun s => s.totalTime.getD 0 < r.totalTime.getD 0),
          points := getPointsForPlace
            (1 + l.countP fun s => s.totalTime.getD 0 < r.totalTime.getD 0) fs,
          fieldSize := fs, run1Count := c1, run2Count := c2 } := by
  cases l with
  | nil => rfl
  | cons r rest' =>
    obtain ⟨w, hw⟩ : ∃ w, r.totalTime = some w := by
      cases h : r.totalTime with
      | none => exact absurd h (hsome r (List.mem_cons_self r rest'))
      | some w => exact ⟨w, rfl⟩
    have hrsorted := List.sorted_cons.mp hs
    have hge : ∀ s ∈ rest', w ≤ s.totalTime.getD 0 := by
      intro s hsmem
      have := hrsorted.1 s hsmem
      simpa [timeLE, hw] using this
    have hcount0 : ∀ u : ℤ, u ≤ w →
        ((r :: rest').countP fun s => s.totalTime.getD 0 < u) = 0 := by
      intro u hu
      rw [List.countP_eq_zero]
      intro s hsmem
      rcases List.mem_cons.mp hsmem with h | h
      · subst h; simp [hw]; omega
      · have := hge s h; simp; omega
    have hsome' : ∀ s ∈ rest', s.totalTime ≠ none :=
      fun s h => hsome s (List.mem_cons_of_mem r h)
    have hcountcons : ∀ u : ℤ, w < u →
        ((r :: rest').countP fun x => x.totalTime.getD 0 < u) =
          1 + (rest'.countP fun x => x.totalTime.getD 0 < u) := by
      intro u hu
      rw [List.countP_cons]
      simp [hw, hu]
      omega
    rw [assignIndividual, List.map_cons, List.cons.injEq]
    refine ⟨by simp [hw, hcount0 w le_rfl], ?_⟩
    rw [hw, assignIndGo_spec fs c1 c2 rest' 1 w 1 hrsorted.2 hsome' hge]
    apply List.map_congr_left
    intro s hsmem
    obtain ⟨u, hu⟩ : ∃ u, s.totalTime = some u := by
      cases h : s.totalTime with
      | none => exact absurd h (hsome' s hsmem)
      | some u => exact ⟨u, rfl⟩
    have hwu : w ≤ u := by simpa [hu] using hge s hsmem
    by_cases hsw : u = w
    · simp [hu, hsw, hcount0 w le_rfl]
    · have hltwu : w < u := lt_of_le_of_ne hwu (Ne.symm hsw)
      simp [hu, hsw, hcountcons u hltwu, Nat.add_assoc]
      all_goals refine ⟨by omega, by congr 1; omega⟩

/-! Structure of the individual result list. -/

theorem mem_sortedFinishersOf {racers : List Racer} {g : String} {r : Racer}
    (h : r ∈ sortedFinishersOf racers g) :
    isFinisher r ∧ r.gender = g ∧ isScoringTeam r.team = true := by
  rw [sortedFinishersOf, List.mem_insertionSort] at h
  have h1 := List.mem_filter.mp h
  have h2 := List.mem_filter.mp h1.1
  refine ⟨by simpa using h1.2, ?_⟩
  simp only [scoringTeamOf, List.mem_filter] at h2
  simpa using h2.2

theorem sortedFinishersOf_sorted (racers : List Racer) (g : String) :
    (sortedFinishersOf racers g).Sorted timeLE :=
  List.sorted_insertionSort timeLE _

theorem placedOf_eq (racers : List Racer) (g : String) :
    placedOf racers g =
      (sortedFinishersOf racers g).map fun r =>
        { r with
          place := some (1 + (sortedFinishersOf racers g).countP
            fun s => s.totalTime.getD 0 < r.totalTime.getD 0),
          points := getPointsForPlace
            (1 + (sortedFinishersOf racers g).countP
              fun s => s.totalTime.getD 0 < r.totalTime.getD 0)
            (genderFieldSizeOf racers g),
          fieldSize := genderFieldSizeOf racers g,
          run1Count := run1CountOf racers g, run2Count := run2CountOf racers g } := by
  rw [placedOf]
  exact assignIndividual_spec _ _ _ _ (sortedFinishersOf_sorted racers g)
    fun r h => (mem_sortedFinishersOf h).1.1

theorem preSort_none_tail (racers : List Racer) (g : String) :
    ∀ x ∈ nonFinishersOf racers g ++ nonScoringOf racers g, x.place = none := by
  intro x hx
  rcases List.mem_append.mp hx with h | h <;>
  · obtain ⟨s, _, rfl⟩ := List.mem_map.mp h
    rfl

theorem placeLE_of_none (a b : Racer) (hb : b.place = none) : placeLE a b := by
  unfold placeLE
  rw [hb]
  cases a.place <;> simp

theorem preSort_sorted (racers : List Racer) (g : String) :
    (preSortResults racers g).Sorted placeLE := by
  have hplaced : (placedOf racers g).Pairwise placeLE := by
    rw [placedOf_eq, List.pairwise_map]
    refine List.Pairwise.imp_of_mem ?_ (sortedFinishersOf_sorted racers g)
    intro a b _ _ hab
    have hcnt : ((sortedFinishersOf racers g).countP
          fun s => s.totalTime.getD 0 < a.totalTime.getD 0) ≤
        (sortedFinishersOf racers g).countP
          fun s => s.totalTime.getD 0 < b.totalTime.getD 0 := by
      refine List.countP_mono_left fun x _ h => ?_
      simp only [decide_eq_true_eq] at h ⊢
      exact lt_of_lt_of_le h hab
    show placeLE _ _
    unfold placeLE
    simpa using hcnt
  rw [preSortResults, List.append_assoc, List.Sorted, List.pairwise_append]
  refine ⟨hplaced, ?_,
    fun a _ b hb => placeLE_of_none a b (preSort_none_tail racers g b hb)⟩
  exact List.pairwise_of_forall_mem_list
    fun a _ b hb => placeLE_of_none a b (preSort_none_tail racers g b hb)

theorem preSort_insertionSort_eq (racers : List Racer) (g : String) :
    (preSortResults racers g).insertionSort placeLE = preSortResults racers g :=
  (preSort_sorted racers g).insertionSort_eq

theorem results_none_eq (racers : List Racer) (g : String) :
    calculateIndividualResults racers g none = preSortResults racers g := by
  rw [calculateIndividualResults]
  exact preSort_insertionSort_eq racers g

theorem results_some_eq (racers : List Racer) (g s : String) :
    calculateIndividualResults racers g (some s) =
      if s = "" then preSortResults racers g
      else (preSortResults racers g).filter fun r => matchesClass r.cls s := by
  rw [calculateIndividualResults, preSort_insertionSort_eq]

theorem mem_results_sub {racers : List Racer} {g : String} {c : Option String}
    {r : Racer} (h : r ∈ calculateIndividualResults racers g c) :
    r ∈ preSortResults racers g := by
  cases c with
  | none => rwa [results_none_eq] at h
  | some s =>
    rw [results_some_eq] at h
    by_cases hs : s = ""
    · rwa [if_pos hs] at h
    · rw [if_neg hs] at h
      exact (List.mem_filter.mp h).1

theorem scoringTeamOf_length (racers : List Racer) (g : String) :
    (scoringTeamOf racers g).length = genderFieldSizeOf racers g := by
  rw [scoringTeamOf, genderFieldSizeOf]
  exact rankedOf_filter_length racers g _ fun a b r => rfl

theorem mem_preSort_fieldSize {racers : List Racer} {g : String} {r : Racer}
    (h : r ∈ preSortResults racers g) :
    r.fieldSize = genderFieldSizeOf racers g := by
  rw [preSortResults] at h
  rcases List.mem_append.mp h with h | h
  · rcases List.mem_append.mp h with h | h
    · rw [placedOf_eq] at h
      obtain ⟨s, _, rfl⟩ := List.mem_map.mp h
      rfl
    · rw [nonFinishersOf] at h
      obtain ⟨s, _, rfl⟩ := List.mem_map.mp h
      rfl
  · rw [nonScoringOf] at h
    obtain ⟨s, _, rfl⟩ := List.mem_map.mp h
    rfl

theorem mem_preSort_cases {racers : List Racer} {g : String} {r : Racer}
    (h : r ∈ preSortResults racers g) :
    (r.place = none ∧ r.points = 0) ∨
      (isFinisher r ∧ r.gender = g ∧ isScoringTeam r.team = true ∧
        r.place ≠ none) := by
  rw [preSortResults] at h
  rcases List.mem_append.mp h with h | h
  · rcases List.mem_append.mp h with h | h
    · rw [placedOf_eq] at h
      obtain ⟨s, hsmem, rfl⟩ := List.mem_map.mp h
      obtain ⟨hfin, hg, hteam⟩ := mem_sortedFinishersOf hsmem
      refine Or.inr ⟨?_, hg, hteam, by simp⟩
      simpa [isFinisher] using hfin
    · rw [nonFinishersOf] at h
      obtain ⟨s, _, rfl⟩ := List.mem_map.mp h
      exact Or.inl ⟨rfl, rfl⟩
  · rw [nonScoringOf] at h
    obtain ⟨s, _, rfl⟩ := List.mem_map.mp h
    exact Or.inl ⟨rfl, rfl⟩

theorem mem_results_place {racers : List Racer} {g : String} {c : Option String}
    {r : Racer} {p : ℕ} (h : r ∈ calculateIndividualResults racers g c)
    (hp : r.place = some p) :
    p = 1 + (racers.filter fun x => x.gender = g ∧ isScoringTeam x.team = true ∧
        isFinisher x ∧ x.totalTime.getD 0 < r.totalTime.getD 0).length ∧
      r.points = getPointsForPlace p (genderFieldSizeOf racers g) ∧
      p ≤ genderFieldSizeOf racers g := by
  have hpre := mem_results_sub h
  rw [preSortResults] at hpre
  have hplacedmem : r ∈ placedOf racers g := by
    rcases List.mem_append.mp hpre with h' | h'
    · rcases List.mem_append.mp h' with h' | h'
      · exact h'
      · rw [nonFinishersOf] at h'
        obtain ⟨s, _, rfl⟩ := List.mem_map.mp h'
        simp [clearPlace] at hp
    · rw [nonScoringOf] at h'
      obtain ⟨s, _, rfl⟩ := List.mem_map.mp h'
      simp [clearPlace] at hp
  rw [placedOf_eq] at hplacedmem
  obtain ⟨s, hsmem, rfl⟩ := List.mem_map.mp hplacedmem
  have hpeq : p = 1 + (sortedFinishersOf racers g).countP
      fun x => x.totalTime.getD 0 < s.totalTime.getD 0 := by
    have := hp
    simp only [Option.some.injEq] at this
    omega
  have htt : ({ s with
      place := some (1 + (sortedFinishersOf racers g).countP
        fun x => x.totalTime.getD 0 < s.totalTime.getD 0),
      points := getPointsForPlace (1 + (sortedFinishersOf racers g).countP
        fun x => x.totalTime.getD 0 < s.totalTime.getD 0) (genderFieldSizeOf racers g),
      fieldSize := genderFieldSizeOf racers g,
      run1Count := run1CountOf racers g,
      run2Count := run2CountOf racers g : Racer }).totalTime = s.totalTime := rfl
  have hcnt_eq : ((sortedFinishersOf racers g).countP
      fun x => x.totalTime.getD 0 < s.totalTime.getD 0) =
      (racers.filter fun x => x.gender = g ∧ isScoringTeam x.team = true ∧
        isFinisher x ∧ x.totalTime.getD 0 < s.totalTime.getD 0).length := by
    rw [sortedFinishersOf]
    rw [(List.perm_insertionSort timeLE _).countP_eq]
    rw [List.countP_filter]
    rw [scoringTeamOf, List.countP_filter]
    have htrans : (rankedOf racers g).countP (fun a =>
        (decide (a.totalTime.getD 0 < s.totalTime.getD 0) && decide (isFinisher a)) &&
          decide (a.gender = g ∧ isScoringTeam a.team = true)) =
        racers.countP (fun a =>
        (decide (a.totalTime.getD 0 < s.totalTime.getD 0) && decide (isFinisher a)) &&
          decide (a.gender = g ∧ isScoringTeam a.team = true)) := by
      have h := rankedOf_filter_map racers g (fun a =>
        (decide (a.totalTime.getD 0 < s.totalTime.getD 0) && decide (isFinisher a)) &&
          decide (a.gender = g ∧ isScoringTeam a.team = true)) (fun _ => ())
        (fun a b r => rfl) (fun _ _ _ => rfl)
      have h2 := congrArg List.length h
      simpa [List.countP_eq_length_filter] using h2
    rw [htrans]
    rw [show (racers.filter fun x => x.gender = g ∧ isScoringTeam x.team = true ∧
        isFinisher x ∧ x.totalTime.getD 0 < s.totalTime.getD 0).length =
        racers.countP fun x => x.gender = g ∧ isScoringTeam x.team = true ∧
        isFinisher x ∧ x.totalTime.getD 0 < s.totalTime.getD 0 from
      (List.countP_eq_length_filter _ _).symm]
    apply List.countP_congr
    intro x _
    simp only [isFinisher, Bool.and_eq_true, decide_eq_true_eq]
    tauto
  have hple : p ≤ genderFieldSizeOf racers g := by
    have hlt : ((sortedFinishersOf racers g).countP
        fun x => x.totalTime.getD 0 < s.totalTime.getD 0) <
        (sortedFinishersOf racers g).length := by
      rcases Nat.lt_or_ge ((sortedFinishersOf racers g).countP
        fun x => x.totalTime.getD 0 < s.totalTime.getD 0)
        (sortedFinishersOf racers g).length with h' | h'
      · exact h'
      · exfalso
        have hle := List.countP_le_length
          (p := fun x : Racer => decide (x.totalTime.getD 0 < s.totalTime.getD 0))
          (l := sortedFinishersOf racers g)
        have heq : ((sortedFinishersOf racers g).countP
            fun x => x.totalTime.getD 0 < s.totalTime.getD 0) =
            (sortedFinishersOf racers g).length := le_antisymm hle h'
        have := List.countP_eq_length.mp heq s hsmem
        simp at this
    have hlen : (sortedFinishersOf racers g).length ≤ genderFieldSizeOf racers g := by
      rw [← scoringTeamOf_length racers g, sortedFinishersOf,
        List.length_insertionSort]
      exact List.length_filter_le _ _
    omega
  refine ⟨by rw [hpeq, hcnt_eq], ?_, by omega⟩
  rw [hpeq]

/-! Small auxiliary facts. -/

theorem filter_length_split {α : Type _} (p : α → Bool) :
    ∀ l : List α, (l.filter p).length + (l.filter fun a => ! p a).length = l.length
  | [] => rfl
  | a :: l => by
    by_cases h : p a <;>
      simp [List.filter_cons, h, ← filter_length_split p l] <;> omega

theorem hasSub_nil : ∀ l : List Char, hasSub l [] = true
  | [] => rfl
  | _ :: _ => by simp [hasSub, isPre]

theorem toLower_ws (c : Char) (h : wsChar c = true) : Char.toLower c = c := by
  simp only [wsChar, Char.isWhitespace, Bool.or_eq_true, decide_eq_true_eq] at h
  rcases h with ((h | h) | h) | h <;> subst h <;> decide

theorem jsTrimList_eq_nil {cs : List Char} (h : ∀ c ∈ cs, wsChar c = true) :
    jsTrimList cs = [] := by
  have hdrop : cs.dropWhile wsChar = [] :=
    List.dropWhile_eq_nil_iff.mpr h
  simp [jsTrimList, hdrop]

theorem mem_of_jsTrim_eq_nil {s : String} (h : jsTrim s = "") :
    ∀ c ∈ s.data, wsChar c = true := by
  have hl : jsTrimList s.data = [] := congrArg String.data h
  unfold jsTrimList at hl
  rw [List.reverse_eq_nil_iff, List.dropWhile_eq_nil_iff] at hl
  intro c hc
  have hsplit : s.data = s.data.takeWhile wsChar ++ s.data.dropWhile wsChar :=
    (List.takeWhile_append_dropWhile wsChar s.data).symm
  rw [hsplit] at hc
  rcases List.mem_append.mp hc with h' | h'
  · exact List.mem_takeWhile_imp h'
  · exact hl c (List.mem_reverse.mpr h')

/-! Behaviour of the time-entry loops on null tokens. -/

theorem procStepDual_runs (st : ProcState) (t : TimeEntry) :
    ((procStepDual st t).run1 = st.run1 ∨ (procStepDual st t).run1 = parseTime t.time) ∧
    ((procStepDual st t).run2 = st.run2 ∨ (procStepDual st t).run2 = parseTime t.time) := by
  unfold procStepDual
  dsimp only
  split_ifs <;> simp

theorem procStepSingle_runs (st : ProcState) (t : TimeEntry) :
    ((procStepSingle st t).run1 = st.run1 ∨ (procStepSingle st t).run1 = parseTime t.time) ∧
    ((procStepSingle st t).run2 = st.run2 ∨ (procStepSingle st t).run2 = parseTime t.time) := by
  unfold procStepSingle
  dsimp only
  split_ifs <;> simp

theorem foldl_run_null (step : ProcState → TimeEntry → ProcState)
    (hstep : ∀ st t,
      ((step st t).run1 = st.run1 ∨ (step st t).run1 = parseTime t.time) ∧
      ((step st t).run2 = st.run2 ∨ (step st t).run2 = parseTime t.time)) :
    ∀ (times : List TimeEntry) (st : ProcState),
      st.run1 = JSVal.null → st.run2 = JSVal.null →
      (∀ t ∈ times, parseTime t.time = JSVal.null) →
      (times.foldl step st).run1 = JSVal.null ∧
        (times.foldl step st).run2 = JSVal.null
  | [], st, h1, h2, _ => ⟨h1, h2⟩
  | t :: times, st, h1, h2, hts => by
    rw [List.foldl_cons]
    have hpt : parseTime t.time = JSVal.null := hts t (List.mem_cons_self t times)
    have hst1 : (step st t).run1 = JSVal.null := by
      rcases (hstep st t).1 with h | h <;> rw [h] <;> [exact h1; exact hpt]
    have hst2 : (step st t).run2 = JSVal.null := by
      rcases (hstep st t).2 with h | h <;> rw [h] <;> [exact h2; exact hpt]
    exact foldl_run_null step hstep times (step st t) hst1 hst2
      fun x hx => hts x (List.mem_cons_of_mem t hx)

/-! Claim theorems on individual scoring. -/

/-- C1: in individual scoring the finishers receive skip-rank
competition places with exact-tie sharing — every returned racer with a
place `p` has `p` equal to one plus the number of strictly faster
allow-listed finishers of the gender in the input, its points follow the
`fieldSize - place + 1` formula at that place, and the place never
exceeds the field size (so the formula is live); the concrete
61.00/61.00/62.00/63.00 example is checked by the witness. -/
theorem individual_tie_ranking (racers : List Racer) (gender : String)
    (raceClass : Option String) (r : Racer) (p : ℕ)
    (h : r ∈ calculateIndividualResults racers gender raceClass)
    (hp : r.place = some p) :
    p = 1 + (racers.filter fun x => x.gender = gender ∧
        isScoringTeam x.team = true ∧ isFinisher x ∧
        x.totalTime.getD 0 < r.totalTime.getD 0).length ∧
      r.points = getPointsForPlace p (genderFieldSizeOf racers gender) ∧
      p ≤ genderFieldSizeOf racers gender :=
  mem_results_place h hp

/-- Witness for C1: the worked tie example — four allow-listed finishers
with total times 61.00, 61.00, 62.00, 63.00 seconds and field size 4 get
places 1, 1, 3, 4 and points 4, 4, 2, 1; the tie-ranking theorem is
instantiated at the third finisher (place 3). -/
theorem individual_tie_ranking_witness :
    ((calculateIndividualResults wFour "M" none).map fun r => (r.place, r.points)) =
        [(some 1, 4), (some 1, 4), (some 3, 2), (some 4, 1)] ∧
      ((calculateIndividualResults wFour "M" none).map fun r => r.fieldSize) =
        [4, 4, 4, 4] ∧
      (3 = 1 + (wFour.filter fun x => x.gender = "M" ∧
          isScoringTeam x.team = true ∧ isFinisher x ∧
          x.totalTime.getD 0 < (62000 : ℤ)).length ∧
        (2 : ℕ) = getPointsForPlace 3 (genderFieldSizeOf wFour "M") ∧
        3 ≤ genderFieldSizeOf wFour "M") :=
  ⟨by decide, by decide, by
    have h := individual_tie_ranking wFour "M" none
      { wRacer "c" "Lakes Area" (some 62000) with
        place := some 3, points := 2, fieldSize := 4 } 3
      (by decide) (by decide)
    exact ⟨h.1, h.2.1, h.2.2⟩⟩

/-- C2: the field size attached by individual scoring counts only the
racers of the gender from allow-listed teams; non-allow-listed racers of
the gender are still returned (the unfiltered list has one entry per
racer of the gender) but always carry a null place, zero points and the
same field size. -/
theorem allowlist_field_size :
    (∀ (racers : List Racer) (gender : String) (raceClass : Option String)
      (r : Racer), r ∈ calculateIndividualResults racers gender raceClass →
      r.fieldSize = (racers.filter fun x => x.gender = gender ∧
          isScoringTeam x.team = true).length ∧
        (isScoringTeam r.team = false → r.place = none ∧ r.points = 0)) ∧
    ∀ (racers : List Racer) (gender : String),
      (calculateIndividualResults racers gender none).length =
        (racers.filter fun x => x.gender = gender).length := by
  constructor
  · intro racers gender raceClass r h
    have hpre := mem_results_sub h
    refine ⟨mem_preSort_fieldSize hpre, fun hteam => ?_⟩
    rcases mem_preSort_cases hpre with h' | h'
    · exact h'
    · rw [h'.2.2.1] at hteam
      cases hteam
  · intro racers gender
    rw [results_none_eq, preSortResults]
    rw [List.length_append, List.length_append]
    rw [placedOf_eq, List.length_map, nonFinishersOf, List.length_map,
      nonScoringOf, List.length_map, sortedFinishersOf, List.length_insertionSort]
    have hsplit := filter_length_split (fun r : Racer => decide (isFinisher r))
      (scoringTeamOf racers gender)
    have hnotcongr : ((scoringTeamOf racers gender).filter fun a =>
        ! decide (isFinisher a)) =
        (scoringTeamOf racers gender).filter fun r => ¬ isFinisher r := by
      apply List.filter_congr
      intro x _
      simp
    rw [← hnotcongr]
    have hone : ((scoringTeamOf racers gender).filter fun r =>
          decide (isFinisher r)).length +
        ((scoringTeamOf racers gender).filter fun a =>
          ! decide (isFinisher a)).length +
        ((rankedOf racers gender).filter fun r =>
          r.gender = gender ∧ ¬ isScoringTeam r.team = true).length =
        (scoringTeamOf racers gender).length +
        ((rankedOf racers gender).filter fun r =>
          r.gender = gender ∧ ¬ isScoringTeam r.team = true).length := by
      omega
    rw [hone, scoringTeamOf]
    have hsplit2 : ((rankedOf racers gender).filter fun r =>
          r.gender = gender ∧ isScoringTeam r.team = true).length +
        ((rankedOf racers gender).filter fun r =>
          r.gender = gender ∧ ¬ isScoringTeam r.team = true).length =
        ((rankedOf racers gender).filter fun r => r.gender = gender).length := by
      have h := filter_length_split (fun r : Racer => decide (isScoringTeam r.team = true))
        ((rankedOf racers gender).filter fun r => r.gender = gender)
      rw [List.filter_filter, List.filter_filter] at h
      have e1 : ((rankedOf racers gender).filter fun a =>
            decide (isScoringTeam a.team = true) && decide (a.gender = gender)) =
          (rankedOf racers gender).filter fun r =>
            r.gender = gender ∧ isScoringTeam r.team = true := by
        apply List.filter_congr
        intro x _
        by_cases h1 : isScoringTeam x.team = true <;>
          by_cases h2 : x.gender = gender <;> simp [h1, h2]
      have e2 : ((rankedOf racers gender).filter fun a =>
            (! decide (isScoringTeam a.team = true)) && decide (a.gender = gender)) =
          (rankedOf racers gender).filter fun r =>
            r.gender = gender ∧ ¬ isScoringTeam r.team = true := by
        apply List.filter_congr
        intro x _
        by_cases h1 : isScoringTeam x.team = true <;>
          by_cases h2 : x.gender = gender <;> simp [h1, h2]
      rw [e1, e2] at h
      exact h
    rw [hsplit2]
    exact rankedOf_filter_length racers gender _ fun a b r => rfl

/-- Witness for C2: ten racers of gender M, six from allow-listed teams:
the field size carried by every returned racer is 6, all ten racers are
returned, and a non-allow-listed racer gets a null place and zero
points. -/
theorem allowlist_field_size_witness :
    (calculateIndividualResults wTen "M" none).length = 10 ∧
      ((calculateIndividualResults wTen "M" none).map fun r => r.fieldSize) =
        [6, 6, 6, 6, 6, 6, 6, 6, 6, 6] ∧
      ((wRacer "g" "Otters" (some 50000)).fieldSize =
          (wTen.filter fun x => x.gender = "M" ∧
            isScoringTeam x.team = true).length →
        True) ∧
      ({ wRacer "g" "Otters" (some 50000) with fieldSize := 6 }.fieldSize =
          (wTen.filter fun x => x.gender = "M" ∧
            isScoringTeam x.team = true).length ∧
        (isScoringTeam ({ wRacer "g" "Otters" (some 50000) with
            fieldSize := 6 } : Racer).team = false →
          ({ wRacer "g" "Otters" (some 50000) with fieldSize := 6 } : Racer).place = none ∧
          ({ wRacer "g" "Otters" (some 50000) with fieldSize := 6 } : Racer).points = 0)) :=
  ⟨by decide, by decide, fun _ => trivial,
    (allowlist_field_size).1 wTen "M" none
      { wRacer "g" "Otters" (some 50000) with fieldSize := 6 } (by decide)⟩

/-- C4: time entries that set `dnf` or `dsq` (non-finish token or status
code 2/3) force a null `totalTime` even when the runs parsed to numbers,
and individual scoring gives every returned racer flagged `dnf` or `dsq`
a null place and zero points. -/
theorem dnf_dsq_exclusion :
    (∀ (times : List TimeEntry) (raceType : ℤ),
      (processRacerTimes times raceType).dnf = true ∨
        (processRacerTimes times raceType).dsq = true →
      (processRacerTimes times raceType).totalTime = JSVal.null) ∧
    ∀ (racers : List Racer) (gender : String) (raceClass : Option String)
      (r : Racer), r ∈ calculateIndividualResults racers gender raceClass →
      (r.dnf = true ∨ r.dsq = true) → r.place = none ∧ r.points = 0 := by
  constructor
  · intro times raceType h
    simp only [processRacerTimes] at h ⊢
    rcases h with h | h <;> simp [h]
  · intro racers gender raceClass r h hdnf
    rcases mem_preSort_cases (mem_results_sub h) with h' | h'
    · exact h'
    · rcases hdnf with hd | hd <;>
      · exfalso
        have := h'.1.2
        simp [hd] at this

/-- Witness for C4: a racer with a parsable 61.00 first-run token but
status code 2 ends with `dnf` set and a null total time, and a returned
dnf-flagged racer has a null place and zero points. -/
theorem dnf_dsq_exclusion_witness :
    (processRacerTimes wDnfTimes 1).dnf = true ∧
      (processRacerTimes wDnfTimes 1).run1 = JSVal.num 61000 ∧
      (processRacerTimes wDnfTimes 1).totalTime = JSVal.null ∧
      (({ wRacer "a" "Brainerd" (some 61000) with dnf := true, fieldSize := 1 } : Racer).place = none ∧
        ({ wRacer "a" "Brainerd" (some 61000) with dnf := true, fieldSize := 1 } : Racer).points = 0) :=
  ⟨by decide, by decide,
    (dnf_dsq_exclusion).1 wDnfTimes 1 (Or.inl (by decide)),
    (dnf_dsq_exclusion).2 [{ wRacer "a" "Brainerd" (some 61000) with dnf := true }]
      "M" none _ (by decide) (Or.inl (by decide))⟩

/-- C9: a non-empty all-whitespace team string passes `isScoringTeam`
(its trimmed lower-casing is the empty string, a substring of every
allow-listed name), while a missing or empty team is falsy and fails;
such a racer is counted in the field size and can earn points, as the
single-racer evaluation shows. -/
theorem whitespace_team_scores :
    (∀ s : String, s ≠ "" → jsTrim s = "" → isScoringTeam (some s) = true) ∧
      isScoringTeam none = false ∧ isScoringTeam (some "") = false ∧
      ((calculateIndividualResults [wWsRacer] "M" none).map fun r =>
        (r.place, r.points, r.fieldSize)) = [(some 1, 1, 1)] := by
  refine ⟨?_, rfl, by decide, by decide⟩
  intro s hne htrim
  have hlow : jsTrim (jsLower s) = "" := by
    have hws := mem_of_jsTrim_eq_nil htrim
    have : ∀ c ∈ (jsLower s).data, wsChar c = true := by
      intro c hc
      rw [jsLower] at hc
      obtain ⟨c', hc', rfl⟩ := List.mem_map.mp hc
      rw [toLower_ws c' (hws c' hc')]
      exact hws c' hc'
    show (⟨jsTrimList (jsLower s).data⟩ : String) = ""
    rw [jsTrimList_eq_nil this]
  simp only [isScoringTeam, if_neg hne, hlow]
  decide

/-- Witness for C9: the single-space team string is non-empty, trims to
empty and passes `isScoringTeam`. -/
theorem whitespace_team_scores_witness :
    isScoringTeam (some " ") = true ∧ isScoringTeam none = false ∧
      isScoringTeam (some "") = false :=
  ⟨(whitespace_team_scores).1 " " (by decide) (by decide),
    (whitespace_team_scores).2.1, (whitespace_team_scores).2.2.1⟩

/-- C5 counterexample: the token `"1:2:3:4"` does not parse under the
time grammar, yet `parseTime` returns 0 ms rather than null (`totalMs`
keeps its initial value when the split has four components); a racer
with that token gets `totalTime` 0 and, fed into individual scoring, a
racer with total time 0 becomes the winning finisher instead of a
non-finisher. -/
theorem unparseable_time_counterexample :
    parseTime "1:2:3:4" = JSVal.num 0 ∧
      JSVal.num 0 ≠ JSVal.null ∧
      (processRacerTimes wBadTimes 0).totalTime = JSVal.num 0 ∧
      ((calculateIndividualResults [wRacer "a" "Brainerd" (some 0)] "M" none).map
        fun r => (r.place, r.points)) = [(some 1, 1)] :=
  ⟨by decide, by decide, by decide, by decide⟩

/-- C5 (amended): a raw time token that is missing/empty or equal to a
DNF/DNS/DSQ/DQ marker is nulled by `parseTime`; when every token of a
racer's time entries is of that shape, `totalTime` stays null for either
race-type loop; and every returned racer with a null `totalTime` has a
null place and zero points (all functions involved are total, so no
exception can occur). -/
theorem null_time_non_finisher :
    (∀ s : String, (s = "" ∨ s = "DNF" ∨ s = "DNS" ∨ s = "DSQ" ∨ s = "DQ") →
      parseTime s = JSVal.null) ∧
    (∀ (times : List TimeEntry) (raceType : ℤ),
      (∀ t ∈ times, t.time = "" ∨ t.time = "DNF" ∨ t.time = "DNS" ∨
        t.time = "DSQ" ∨ t.time = "DQ") →
      (processRacerTimes times raceType).totalTime = JSVal.null) ∧
    ∀ (racers : List Racer) (gender : String) (raceClass : Option String)
      (r : Racer), r ∈ calculateIndividualResults racers gender raceClass →
      r.totalTime = none → r.place = none ∧ r.points = 0 := by
  have hmark : ∀ s : String,
      (s = "" ∨ s = "DNF" ∨ s = "DNS" ∨ s = "DSQ" ∨ s = "DQ") →
      parseTime s = JSVal.null := by
    intro s h
    rw [parseTime, if_pos h]
  refine ⟨hmark, ?_, ?_⟩
  · intro times rt h
    have hnull : ∀ t ∈ times, parseTime t.time = JSVal.null :=
      fun t ht => hmark t.time (h t ht)
    rcases eq_or_ne rt 1 with hrt | hrt
    · have h1 := (foldl_run_null procStepDual procStepDual_runs times
        { run1 := JSVal.null, run2 := JSVal.null, dnf := false, dsq := false,
          status := "OK" } rfl rfl hnull).1
      simp [processRacerTimes, hrt, h1]
    · have h1 := (foldl_run_null procStepSingle procStepSingle_runs times
        { run1 := JSVal.null, run2 := JSVal.null, dnf := false, dsq := false,
          status := "OK" } rfl rfl hnull).1
      simp [processRacerTimes, hrt, h1]
  · intro racers gender raceClass r h htt
    rcases mem_preSort_cases (mem_results_sub h) with h' | h'
    · exact h'
    · exact absurd htt h'.1.1

/-- Witness for the amended C5: the `"DNF"` marker parses to null, a
racer whose tokens are empty or markers keeps a null total time, and the
single allow-listed racer with a null total time is returned with a null
place and zero points. -/
theorem null_time_non_finisher_witness :
    parseTime "DNF" = JSVal.null ∧
      (processRacerTimes wNullTimes 0).totalTime = JSVal.null ∧
      (({ wRacer "n" "Brainerd" none with fieldSize := 1 } : Racer).place = none ∧
        ({ wRacer "n" "Brainerd" none with fieldSize := 1 } : Racer).points = 0) :=
  ⟨(null_time_non_finisher).1 "DNF" (by decide),
    (null_time_non_finisher).2.1 wNullTimes 0 (by decide),
    (null_time_non_finisher).2.2 [wRacer "n" "Brainerd" none] "M" none
      { wRacer "n" "Brainerd" none with fieldSize := 1 } (by decide) (by decide)⟩

/-! Identification of the three display groups inside the result list. -/

theorem mem_placedOf_props {racers : List Racer} {g : String} {x : Racer}
    (h : x ∈ placedOf racers g) :
    x.place ≠ none ∧ isScoringTeam x.team = true := by
  rw [placedOf_eq] at h
  obtain ⟨s, hs, rfl⟩ := List.mem_map.mp h
  exact ⟨by simp, (mem_sortedFinishersOf hs).2.2⟩

theorem mem_nonFinishersOf_props {racers : List Racer} {g : String} {x : Racer}
    (h : x ∈ nonFinishersOf racers g) :
    x.place = none ∧ isScoringTeam x.team = true := by
  rw [nonFinishersOf] at h
  obtain ⟨s, hs, rfl⟩ := List.mem_map.mp h
  have h1 := List.mem_filter.mp hs
  simp only [scoringTeamOf, List.mem_filter] at h1
  refine ⟨rfl, ?_⟩
  have := h1.1.2
  simp only [decide_eq_true_eq] at this
  exact this.2

theorem mem_nonScoringOf_props {racers : List Racer} {g : String} {x : Racer}
    (h : x ∈ nonScoringOf racers g) :
    x.place = none ∧ isScoringTeam x.team = false := by
  rw [nonScoringOf] at h
  obtain ⟨s, hs, rfl⟩ := List.mem_map.mp h
  have h1 := List.mem_filter.mp hs
  refine ⟨rfl, ?_⟩
  have := h1.2
  simp only [decide_eq_true_eq] at this
  show isScoringTeam s.team = false
  simpa using this.2

theorem res_none_parts (racers : List Racer) (g : String) :
    ((calculateIndividualResults racers g none).filter fun r =>
        r.place ≠ none) = placedOf racers g ∧
    ((calculateIndividualResults racers g none).filter fun r =>
        r.place = none ∧ isScoringTeam r.team = true) = nonFinishersOf racers g ∧
    ((calculateIndividualResults racers g none).filter fun r =>
        r.place = none ∧ isScoringTeam r.team = false) = nonScoringOf racers g := by
  rw [results_none_eq, preSortResults]
  simp only [List.filter_append]
  refine ⟨?_, ?_, ?_⟩
  · rw [List.filter_eq_self.mpr fun a ha => by
      simpa using (mem_placedOf_props ha).1]
    rw [List.filter_eq_nil_iff.mpr fun a ha => by
      simp [(mem_nonFinishersOf_props ha).1]]
    rw [List.filter_eq_nil_iff.mpr fun a ha => by
      simp [(mem_nonScoringOf_props ha).1]]
    simp
  · rw [List.filter_eq_nil_iff.mpr fun a ha => by
      simp [(mem_placedOf_props ha).1]]
    rw [List.filter_eq_self.mpr fun a ha => by
      simp [(mem_nonFinishersOf_props ha).1, (mem_nonFinishersOf_props ha).2]]
    rw [List.filter_eq_nil_iff.mpr fun a ha => by
      simp [(mem_nonScoringOf_props ha).1, (mem_nonScoringOf_props ha).2]]
    simp
  · rw [List.filter_eq_nil_iff.mpr fun a ha => by
      simp [(mem_placedOf_props ha).1]]
    rw [List.filter_eq_nil_iff.mpr fun a ha => by
      simp [(mem_nonFinishersOf_props ha).1, (mem_nonFinishersOf_props ha).2]]
    rw [List.filter_eq_self.mpr fun a ha => by
      simp [(mem_nonScoringOf_props ha).1, (mem_nonScoringOf_props ha).2]]
    simp

theorem unscored_timeLE_iff (a b : Racer) :
    timeLE a b ↔ timeLE (unscored a) (unscored b) := Iff.rfl

theorem placed_map_unscored (racers : List Racer) (g : String) :
    (placedOf racers g).map unscored =
      ((racers.filter fun x => x.gender = g ∧ isScoringTeam x.team = true ∧
        isFinisher x).map unscored).insertionSort timeLE := by
  rw [placedOf_eq, List.map_map]
  have h1 : (unscored ∘ fun r : Racer =>
      ({ r with
        place := some (1 + (sortedFinishersOf racers g).countP
          fun s => s.totalTime.getD 0 < r.totalTime.getD 0),
        points := getPointsForPlace
          (1 + (sortedFinishersOf racers g).countP
            fun s => s.totalTime.getD 0 < r.totalTime.getD 0)
          (genderFieldSizeOf racers g),
        fieldSize := genderFieldSizeOf racers g,
        run1Count := run1CountOf racers g,
        run2Count := run2CountOf racers g } : Racer)) = unscored := rfl
  rw [h1, sortedFinishersOf]
  rw [List.map_insertionSort timeLE timeLE unscored _ fun a _ b _ => Iff.rfl]
  congr 1
  rw [scoringTeamOf, List.filter_filter]
  have h2 := rankedOf_filter_map racers g
    (fun a => decide (isFinisher a) &&
      decide (a.gender = g ∧ isScoringTeam a.team = true))
    unscored (fun a b r => rfl) (fun a b r => rfl)
  rw [h2]
  congr 1
  apply List.filter_congr
  intro x _
  by_cases h1 : isFinisher x <;> by_cases h2 : x.gender = g <;>
    by_cases h3 : isScoringTeam x.team = true <;> simp [h1, h2, h3]

theorem nonFin_map_unscored (racers : List Racer) (g : String) :
    (nonFinishersOf racers g).map unscored =
      (racers.filter fun x => x.gender = g ∧ isScoringTeam x.team = true ∧
        ¬ isFinisher x).map unscored := by
  rw [nonFinishersOf, List.map_map]
  have h1 : (unscored ∘ clearPlace (genderFieldSizeOf racers g)
      (run1CountOf racers g) (run2CountOf racers g)) = unscored := rfl
  rw [h1, scoringTeamOf, List.filter_filter]
  have h2 := rankedOf_filter_map racers g
    (fun a => decide (¬ isFinisher a) &&
      decide (a.gender = g ∧ isScoringTeam a.team = true))
    unscored (fun a b r => rfl) (fun a b r => rfl)
  rw [h2]
  congr 1
  apply List.filter_congr
  intro x _
  by_cases h1 : isFinisher x <;> by_cases h2 : x.gender = g <;>
    by_cases h3 : isScoringTeam x.team = true <;> simp [h1, h2, h3]

theorem nonScore_map_unscored (racers : List Racer) (g : String) :
    (nonScoringOf racers g).map unscored =
      (racers.filter fun x => x.gender = g ∧
        isScoringTeam x.team = false).map unscored := by
  rw [nonScoringOf, List.map_map]
  have h1 : (unscored ∘ clearPlace (genderFieldSizeOf racers g)
      (run1CountOf racers g) (run2CountOf racers g)) = unscored := rfl
  rw [h1]
  have h2 := rankedOf_filter_map racers g
    (fun a => decide (a.gender = g ∧ ¬ isScoringTeam a.team = true))
    unscored (fun a b r => rfl) (fun a b r => rfl)
  rw [h2]
  congr 1
  apply List.filter_congr
  intro x _
  by_cases h2 : x.gender = g <;>
    by_cases h3 : isScoringTeam x.team = true <;> simp [h2, h3]

/-- C6: the list returned by individual scoring is the placed finishers
(in ascending place order, equivalently ascending total time), followed
by the allow-listed non-finishers, followed by the non-allow-listed
racers of the gender — and, up to the fields the pass writes, the
finisher block is the time-sorted finisher pool while the two null-place
blocks preserve the input order of their racers. -/
theorem individual_result_ordering (racers : List Racer) (g : String) :
    calculateIndividualResults racers g none =
      ((calculateIndividualResults racers g none).filter fun r =>
        r.place ≠ none) ++
      ((calculateIndividualResults racers g none).filter fun r =>
        r.place = none ∧ isScoringTeam r.team = true) ++
      ((calculateIndividualResults racers g none).filter fun r =>
        r.place = none ∧ isScoringTeam r.team = false) ∧
    (calculateIndividualResults racers g none).Sorted placeLE ∧
    (((calculateIndividualResults racers g none).filter fun r =>
        r.place ≠ none).map unscored =
      ((racers.filter fun x => x.gender = g ∧ isScoringTeam x.team = true ∧
        isFinisher x).map unscored).insertionSort timeLE) ∧
    (((calculateIndividualResults racers g none).filter fun r =>
        r.place = none ∧ isScoringTeam r.team = true).map unscored =
      (racers.filter fun x => x.gender = g ∧ isScoringTeam x.team = true ∧
        ¬ isFinisher x).map unscored) ∧
    (((calculateIndividualResults racers g none).filter fun r =>
        r.place = none ∧ isScoringTeam r.team = false).map unscored =
      (racers.filter fun x => x.gender = g ∧
        isScoringTeam x.team = false).map unscored) := by
  obtain ⟨hp, hnf, hns⟩ := res_none_parts racers g
  refine ⟨?_, ?_, ?_, ?_, ?_⟩
  · rw [hp, hnf, hns, results_none_eq, preSortResults]
  · rw [results_none_eq]
    exact preSort_sorted racers g
  · rw [hp]
    exact placed_map_unscored racers g
  · rw [hnf]
    exact nonFin_map_unscored racers g
  · rw [hns]
    exact nonScore_map_unscored racers g

/-! Properties of the descending points sort used by the drop rule. -/

theorem key_foldl_sum {α : Type _} (key : α → ℕ) :
    ∀ (l : List α) (n : ℕ), l.foldl (fun s r => s + key r) n = n + (l.map key).sum
  | [], n => by simp
  | a :: l, n => by
    rw [List.foldl_cons, key_foldl_sum key l (n + key a)]
    simp
    omega

theorem mem_of_getLast?_eq {α : Type _} : ∀ {l : List α} {d : α},
    l.getLast? = some d → d ∈ l
  | [], _, h => by cases h
  | [a], d, h => by
    simp at h
    subst h
    simp
  | a :: b :: t, d, h => by
    rw [List.getLast?_cons_cons] at h
    exact List.mem_cons_of_mem a (mem_of_getLast?_eq h)

theorem sorted_getLast_min {α : Type _} (key : α → ℕ) :
    ∀ (l : List α), l.Pairwise (fun a b => key b ≤ key a) →
      ∀ d, l.getLast? = some d → ∀ x ∈ l, key d ≤ key x
  | [], _, d, hd => by cases hd
  | [a], _, d, hd => by
    intro x hx
    simp at hd hx
    subst hd
    subst hx
    exact le_rfl
  | a :: b :: t, hp, d, hd => by
    intro x hx
    rw [List.getLast?_cons_cons] at hd
    have hp' := List.pairwise_cons.mp hp
    have ih := sorted_getLast_min key (b :: t) hp'.2 d hd
    rcases List.mem_cons.mp hx with h | h
    · subst h
      have hdm : d ∈ b :: t := mem_of_getLast?_eq hd
      exact hp'.1 d hdm
    · exact ih x h

theorem sorted_getLast_filter {α : Type _} (key : α → ℕ) :
    ∀ (l : List α), l.Pairwise (fun a b => key b ≤ key a) →
      ∀ d, l.getLast? = some d →
      (l.filter fun x => key x = key d).getLast? = some d
  | [], _, d, hd => by cases hd
  | [a], _, d, hd => by
    simp at hd
    subst hd
    simp
  | a :: b :: t, hp, d, hd => by
    rw [List.getLast?_cons_cons] at hd
    have hp' := List.pairwise_cons.mp hp
    have ih := sorted_getLast_filter key (b :: t) hp'.2 d hd
    rw [List.filter_cons]
    by_cases ha : key a = key d
    · simp only [ha, decide_True, if_true]
      have hne : (b :: t).filter (fun x => key x = key d) ≠ [] := by
        intro hnil
        rw [hnil] at ih
        cases ih
      obtain ⟨y, ys, hys⟩ := List.exists_cons_of_ne_nil hne
      rw [hys]
      rw [hys] at ih
      rwa [List.getLast?_cons_cons]
    · simpa [ha] using ih

theorem orderedInsert_filter_key {α : Type _} (r : α → α → Prop) [DecidableRel r]
    (key : α → ℕ) (hr : ∀ a b, r a b ↔ key b ≤ key a) (c : ℕ) (x : α) :
    ∀ s : List α, ((s.orderedInsert r x).filter fun y => key y = c) =
      if key x = c then x :: s.filter fun y => key y = c
      else s.filter fun y => key y = c
  | [] => by
    by_cases hx : key x = c <;> simp [List.orderedInsert, hx]
  | y :: ys => by
    rw [List.orderedInsert]
    by_cases hxy : r x y
    · rw [if_pos hxy, List.filter_cons]
      by_cases hx : key x = c <;> simp [hx]
    · rw [if_neg hxy, List.filter_cons]
      have hlt : key y ≤ key x → False := fun h => hxy ((hr x y).mpr h)
      by_cases hy : key y = c
      · have hx : key x ≠ c := by
          intro hx
          exact hlt (by omega)
        simp only [hy, decide_True, if_true,
          orderedInsert_filter_key r key hr c x ys, hx, if_false]
        rw [List.filter_cons]
        simp [hy, hx]
      · simp only [hy, decide_False, Bool.false_eq_true, if_false,
          orderedInsert_filter_key r key hr c x ys]
        rw [List.filter_cons]
        by_cases hx : key x = c <;> simp [hx, hy]

theorem insertionSort_filter_key {α : Type _} (r : α → α → Prop) [DecidableRel r]
    (key : α → ℕ) (hr : ∀ a b, r a b ↔ key b ≤ key a) (c : ℕ) :
    ∀ l : List α, ((l.insertionSort r).filter fun y => key y = c) =
      l.filter fun y => key y = c
  | [] => rfl
  | x :: l => by
    rw [List.insertionSort, orderedInsert_filter_key r key hr c x, List.filter_cons]
    by_cases hx : key x = c <;>
      simp [hx, insertionSort_filter_key r key hr c l]

theorem indPointsSum_eq (l : List IndEventResult) :
    indPointsSum l = (l.map fun r => r.points).sum := by
  have h := key_foldl_sum (fun r : IndEventResult => r.points) l 0
  simpa [indPointsSum] using h

theorem teamPointsSum_eq (l : List TeamEventResult) :
    teamPointsSum l = (l.map fun r => r.points).sum := by
  have h := key_foldl_sum (fun r : TeamEventResult => r.points) l 0
  simpa [teamPointsSum] using h

theorem applyDropInd_spec (N : ℕ) (e : IndividualTotal) :
    (applyDropInd N e).eventResults = e.eventResults ∧
    (applyDropInd N e).eventCount = e.eventResults.length ∧
    (applyDropInd N e).droppedResult =
      (if N ≤ e.eventResults.length ∧ 1 < N
        then (e.eventResults.insertionSort indResLE).getLast? else none) ∧
    (∀ d, (applyDropInd N e).droppedResult = some d →
      (∀ x ∈ e.eventResults, d.points ≤ x.points) ∧
      (applyDropInd N e).totalPoints + d.points = indPointsSum e.eventResults ∧
      (e.eventResults.filter fun x => x.points = d.points).getLast? = some d) ∧
    ((applyDropInd N e).droppedResult = none →
      (applyDropInd N e).totalPoints = indPointsSum e.eventResults) := by
  have hlen : (e.eventResults.insertionSort indResLE).length = e.eventResults.length :=
    List.length_insertionSort _ _
  have hperm : List.Perm (e.eventResults.insertionSort indResLE) e.eventResults :=
    List.perm_insertionSort _ _
  have hpair : (e.eventResults.insertionSort indResLE).Pairwise
      (fun a b => b.points ≤ a.points) :=
    (List.sorted_insertionSort indResLE e.eventResults).imp fun h => h
  have hsum : indPointsSum (e.eventResults.insertionSort indResLE) =
      indPointsSum e.eventResults := by
    rw [indPointsSum_eq, indPointsSum_eq]
    exact (hperm.map fun r => r.points).sum_eq
  have hcond : ((N ≤ (e.eventResults.insertionSort indResLE).length ∧ 1 < N) ↔
      (N ≤ e.eventResults.length ∧ 1 < N)) := by rw [hlen]
  refine ⟨rfl, ?_, ?_, ?_, ?_⟩
  · exact hlen
  · show (if N ≤ (e.eventResults.insertionSort indResLE).length ∧ 1 < N
        then (e.eventResults.insertionSort indResLE).getLast? else none) = _
    simp only [hlen]
  · intro d hd
    by_cases hdrop : N ≤ (e.eventResults.insertionSort indResLE).length ∧ 1 < N
    · have hd' : (e.eventResults.insertionSort indResLE).getLast? = some d := by
        have : (applyDropInd N e).droppedResult =
            (e.eventResults.insertionSort indResLE).getLast? := by
          show (if N ≤ (e.eventResults.insertionSort indResLE).length ∧ 1 < N
              then (e.eventResults.insertionSort indResLE).getLast? else none) = _
          rw [if_pos hdrop]
        rw [this] at hd
        exact hd
      refine ⟨?_, ?_, ?_⟩
      · intro x hx
        exact sorted_getLast_min (fun r => r.points) _ hpair d hd' x
          (hperm.mem_iff.mpr hx)
      · have htp0 : (applyDropInd N e).totalPoints =
            indPointsSum (if N ≤ (e.eventResults.insertionSort indResLE).length ∧ 1 < N
              then (e.eventResults.insertionSort indResLE).dropLast
              else e.eventResults.insertionSort indResLE) := rfl
        have htp : (applyDropInd N e).totalPoints =
            indPointsSum (e.eventResults.insertionSort indResLE).dropLast := by
          rw [htp0, if_pos hdrop]
        have happ : (e.eventResults.insertionSort indResLE).dropLast ++ [d] =
            e.eventResults.insertionSort indResLE :=
          List.dropLast_append_getLast? d hd'
        have h2 : indPointsSum ((e.eventResults.insertionSort indResLE).dropLast ++ [d]) =
            indPointsSum ((e.eventResults.insertionSort indResLE).dropLast) + d.points := by
          rw [indPointsSum_eq, indPointsSum_eq, List.map_append, List.sum_append]
          simp
        rw [htp, ← hsum]
        conv_rhs => rw [← happ]
        exact h2.symm
      · have hstab := sorted_getLast_filter (fun r => r.points) _ hpair d hd'
        rwa [insertionSort_filter_key indResLE (fun r => r.points)
          (fun a b => Iff.rfl) d.points] at hstab
    · exfalso
      have : (applyDropInd N e).droppedResult = none := by
        show (if N ≤ (e.eventResults.insertionSort indResLE).length ∧ 1 < N
            then (e.eventResults.insertionSort indResLE).getLast? else none) = _
        rw [if_neg hdrop]
      rw [this] at hd
      cases hd
  · intro hd
    by_cases hdrop : N ≤ (e.eventResults.insertionSort indResLE).length ∧ 1 < N
    · exfalso
      have hlast : (e.eventResults.insertionSort indResLE).getLast? = none := by
        have : (applyDropInd N e).droppedResult =
            (e.eventResults.insertionSort indResLE).getLast? := by
          show (if N ≤ (e.eventResults.insertionSort indResLE).length ∧ 1 < N
              then (e.eventResults.insertionSort indResLE).getLast? else none) = _
          rw [if_pos hdrop]
        rw [this] at hd
        exact hd
      have hnil : e.eventResults.insertionSort indResLE = [] :=
        List.getLast?_eq_none_iff.mp hlast
      rw [hnil] at hdrop
      simp at hdrop
      omega
    · have htp0 : (applyDropInd N e).totalPoints =
          indPointsSum (if N ≤ (e.eventResults.insertionSort indResLE).length ∧ 1 < N
            then (e.eventResults.insertionSort indResLE).dropLast
            else e.eventResults.insertionSort indResLE) := rfl
      have htp : (applyDropInd N e).totalPoints =
          indPointsSum (e.eventResults.insertionSort indResLE) := by
        rw [htp0, if_neg hdrop]
      rw [htp, hsum]

theorem applyDropTeam_spec (N : ℕ) (e : TeamTotal) :
    (applyDropTeam N e).eventResults = e.eventResults ∧
    (applyDropTeam N e).eventCount = e.eventResults.length ∧
    (applyDropTeam N e).droppedResult =
      (if N ≤ e.eventResults.length ∧ 1 < N
        then (e.eventResults.insertionSort teamResLE).getLast? else none) ∧
    (∀ d, (applyDropTeam N e).droppedResult = some d →
      (∀ x ∈ e.eventResults, d.points ≤ x.points) ∧
      (applyDropTeam N e).totalPoints + d.points = teamPointsSum e.eventResults ∧
      (e.eventResults.filter fun x => x.points = d.points).getLast? = some d) ∧
    ((applyDropTeam N e).droppedResult = none →
      (applyDropTeam N e).totalPoints = teamPointsSum e.eventResults) := by
  have hlen : (e.eventResults.insertionSort teamResLE).length = e.eventResults.length :=
    List.length_insertionSort _ _
  have hperm : List.Perm (e.eventResults.insertionSort teamResLE) e.eventResults :=
    List.perm_insertionSort _ _
  have hpair : (e.eventResults.insertionSort teamResLE).Pairwise
      (fun a b => b.points ≤ a.points) :=
    (List.sorted_insertionSort teamResLE e.eventResults).imp fun h => h
  have hsum : teamPointsSum (e.eventResults.insertionSort teamResLE) =
      teamPointsSum e.eventResults := by
    rw [teamPointsSum_eq, teamPointsSum_eq]
    exact (hperm.map fun r => r.points).sum_eq
  refine ⟨rfl, ?_, ?_, ?_, ?_⟩
  · exact hlen
  · show (if N ≤ (e.eventResults.insertionSort teamResLE).length ∧ 1 < N
        then (e.eventResults.insertionSort teamResLE).getLast? else none) = _
    simp only [hlen]
  · intro d hd
    by_cases hdrop : N ≤ (e.eventResults.insertionSort teamResLE).length ∧ 1 < N
    · have hd' : (e.eventResults.insertionSort teamResLE).getLast? = some d := by
        have : (applyDropTeam N e).droppedResult =
            (e.eventResults.insertionSort teamResLE).getLast? := by
          show (if N ≤ (e.eventResults.insertionSort teamResLE).length ∧ 1 < N
              then (e.eventResults.insertionSort teamResLE).getLast? else none) = _
          rw [if_pos hdrop]
        rw [this] at hd
        exact hd
      refine ⟨?_, ?_, ?_⟩
      · intro x hx
        exact sorted_getLast_min (fun r => r.points) _ hpair d hd' x
          (hperm.mem_iff.mpr hx)
      · have htp0 : (applyDropTeam N e).totalPoints =
            teamPointsSum (if N ≤ (e.eventResults.insertionSort teamResLE).length ∧ 1 < N
              then (e.eventResults.insertionSort teamResLE).dropLast
              else e.eventResults.insertionSort teamResLE) := rfl
        have htp : (applyDropTeam N e).totalPoints =
            teamPointsSum (e.eventResults.insertionSort teamResLE).dropLast := by
          rw [htp0, if_pos hdrop]
        have happ : (e.eventResults.insertionSort teamResLE).dropLast ++ [d] =
            e.eventResults.insertionSort teamResLE :=
          List.dropLast_append_getLast? d hd'
        have h2 : teamPointsSum ((e.eventResults.insertionSort teamResLE).dropLast ++ [d]) =
            teamPointsSum ((e.eventResults.insertionSort teamResLE).dropLast) + d.points := by
          rw [teamPointsSum_eq, teamPointsSum_eq, List.map_append, List.sum_append]
          simp
        rw [htp, ← hsum]
        conv_rhs => rw [← happ]
        exact h2.symm
      · have hstab := sorted_getLast_filter (fun r => r.points) _ hpair d hd'
        rwa [insertionSort_filter_key teamResLE (fun r => r.points)
          (fun a b => Iff.rfl) d.points] at hstab
    · exfalso
      have : (applyDropTeam N e).droppedResult = none := by
        show (if N ≤ (e.eventResults.insertionSort teamResLE).length ∧ 1 < N
            then (e.eventResults.insertionSort teamResLE).getLast? else none) = _
        rw [if_neg hdrop]
      rw [this] at hd
      cases hd
  · intro hd
    by_cases hdrop : N ≤ (e.eventResults.insertionSort teamResLE).length ∧ 1 < N
    · exfalso
      have hlast : (e.eventResults.insertionSort teamResLE).getLast? = none := by
        have : (applyDropTeam N e).droppedResult =
            (e.eventResults.insertionSort teamResLE).getLast? := by
          show (if N ≤ (e.eventResults.insertionSort teamResLE).length ∧ 1 < N
              then (e.eventResults.insertionSort teamResLE).getLast? else none) = _
          rw [if_pos hdrop]
        rw [this] at hd
        exact hd
      have hnil : e.eventResults.insertionSort teamResLE = [] :=
        List.getLast?_eq_none_iff.mp hlast
      rw [hnil] at hdrop
      simp at hdrop
      omega
    · have htp0 : (applyDropTeam N e).totalPoints =
          teamPointsSum (if N ≤ (e.eventResults.insertionSort teamResLE).length ∧ 1 < N
            then (e.eventResults.insertionSort teamResLE).dropLast
            else e.eventResults.insertionSort teamResLE) := rfl
      have htp : (applyDropTeam N e).totalPoints =
          teamPointsSum (e.eventResults.insertionSort teamResLE) := by
        rw [htp0, if_neg hdrop]
      rw [htp, hsum]

theorem mem_assignIndPlaces : ∀ (k : ℕ) (l : List IndividualTotal)
    (x : IndividualTotal), x ∈ assignIndPlaces k l →
    ∃ y ∈ l, ∃ j, x = { y with place := j }
  | _, [], _, h => by cases h
  | k, t :: ts, x, h => by
    rw [assignIndPlaces] at h
    rcases List.mem_cons.mp h with h | h
    · exact ⟨t, List.mem_cons_self t ts, k, h⟩
    · obtain ⟨y, hy, j, hj⟩ := mem_assignIndPlaces (k + 1) ts x h
      exact ⟨y, List.mem_cons_of_mem _ hy, j, hj⟩

theorem mem_assignTeamTotalPlaces : ∀ (k : ℕ) (l : List TeamTotal)
    (x : TeamTotal), x ∈ assignTeamTotalPlaces k l →
    ∃ y ∈ l, ∃ j, x = { y with place := j }
  | _, [], _, h => by cases h
  | k, t :: ts, x, h => by
    rw [assignTeamTotalPlaces] at h
    rcases List.mem_cons.mp h with h | h
    · exact ⟨t, List.mem_cons_self t ts, k, h⟩
    · obtain ⟨y, hy, j, hj⟩ := mem_assignTeamTotalPlaces (k + 1) ts x h
      exact ⟨y, List.mem_cons_of_mem _ hy, j, hj⟩

theorem mem_season_individuals {events : List Event} {g : String}
    {c : Option String} {ind : IndividualTotal}
    (h : ind ∈ (calculateSeasonStandings events g c).individuals) :
    ∃ e, (∃ k, (k, e) ∈ seasonIndAccum events g c) ∧
      ∃ j, ind = { applyDropInd events.length e with place := j } := by
  simp only [calculateSeasonStandings] at h
  obtain ⟨y, hy, j, hj⟩ := mem_assignIndPlaces _ _ _ h
  rw [List.mem_insertionSort] at hy
  obtain ⟨p, hp, rfl⟩ := List.mem_map.mp hy
  exact ⟨p.2, ⟨p.1, hp⟩, j, hj⟩

theorem mem_season_teams {events : List Event} {g : String}
    {c : Option String} {team : TeamTotal}
    (h : team ∈ (calculateSeasonStandings events g c).teams) :
    ∃ e, (∃ k, (k, e) ∈ seasonTeamAccum events g c) ∧
      ∃ j, team = { applyDropTeam events.length e with place := j } := by
  simp only [calculateSeasonStandings] at h
  obtain ⟨y, hy, j, hj⟩ := mem_assignTeamTotalPlaces _ _ _ h
  rw [List.mem_insertionSort] at hy
  obtain ⟨p, hp, rfl⟩ := List.mem_map.mp hy
  exact ⟨p.2, ⟨p.1, hp⟩, j, hj⟩

/-- C3: for every accumulated entity of the season standings (athlete or
team) independently, the drop rule holds: the entity's single worst
event result is dropped from the total exactly when its result count
reaches the season's event count and the season has more than one event;
a dropped result has minimal points among the entity's results, what was
dropped plus the kept total re-sums to the full total, and among results
tied at the minimum the one dropped is the last accumulated (the last of
the stable descending sort). -/
theorem season_drop_rule (events : List Event) (gender : String)
    (raceClass : Option String) :
    (∀ ind ∈ (calculateSeasonStandings events gender raceClass).individuals,
      ind.eventCount = ind.eventResults.length ∧
      ind.droppedResult = (if events.length ≤ ind.eventResults.length ∧ 1 < events.length
        then (ind.eventResults.insertionSort indResLE).getLast? else none) ∧
      (∀ d, ind.droppedResult = some d →
        (∀ x ∈ ind.eventResults, d.points ≤ x.points) ∧
        ind.totalPoints + d.points = indPointsSum ind.eventResults ∧
        (ind.eventResults.filter fun x => x.points = d.points).getLast? = some d) ∧
      (ind.droppedResult = none →
        ind.totalPoints = indPointsSum ind.eventResults)) ∧
    ∀ team ∈ (calculateSeasonStandings events gender raceClass).teams,
      team.eventCount = team.eventResults.length ∧
      team.droppedResult = (if events.length ≤ team.eventResults.length ∧ 1 < events.length
        then (team.eventResults.insertionSort teamResLE).getLast? else none) ∧
      (∀ d, team.droppedResult = some d →
        (∀ x ∈ team.eventResults, d.points ≤ x.points) ∧
        team.totalPoints + d.points = teamPointsSum team.eventResults ∧
        (team.eventResults.filter fun x => x.points = d.points).getLast? = some d) ∧
      (team.droppedResult = none →
        team.totalPoints = teamPointsSum team.eventResults) := by
  constructor
  · intro ind hmem
    obtain ⟨e, _, j, rfl⟩ := mem_season_individuals hmem
    obtain ⟨h1, h2, h3, h4, h5⟩ := applyDropInd_spec events.length e
    have he : ({ applyDropInd events.length e with place := j} :
        IndividualTotal).eventResults = e.eventResults := h1
    rw [he]
    exact ⟨h2, h3, h4, h5⟩
  · intro team hmem
    obtain ⟨e, _, j, rfl⟩ := mem_season_teams hmem
    obtain ⟨h1, h2, h3, h4, h5⟩ := applyDropTeam_spec events.length e
    have he : ({ applyDropTeam events.length e with place := j} :
        TeamTotal).eventResults = e.eventResults := h1
    rw [he]
    exact ⟨h2, h3, h4, h5⟩

/-- Witness for C3: in the five-event season, the athlete with results
in all five events has the lowest-points result dropped (points 1, total
5 of 6), the athlete with four of five results keeps everything (total
7), and in the one-event season the drop conjunct of the theorem yields
the full sum. -/
theorem season_drop_rule_witness :
    ((calculateSeasonStandings wSeason5 "M" none).individuals.map
      fun e => (e.firstName, e.eventCount, e.droppedResult.map fun d => d.points,
        e.totalPoints)) = [("Four", 4, none, 7), ("All", 5, some 1, 5)] ∧
    ((calculateSeasonStandings wSeason1 "M" none).individuals.map
      fun e => (e.droppedResult, e.totalPoints)) = [(none, 1)] ∧
    ((calculateSeasonStandings wSeason1 "M" none).individuals.getD 0 {}).totalPoints =
      indPointsSum ((calculateSeasonStandings wSeason1 "M" none).individuals.getD 0
        {}).eventResults := by
  refine ⟨by decide, by decide, ?_⟩
  have h := (season_drop_rule wSeason1 "M" none).1
    ((calculateSeasonStandings wSeason1 "M" none).individuals.getD 0 {}) (by decide)
  exact h.2.2.2 (by decide)

theorem assignIndPlaces_map_place : ∀ (k : ℕ) (l : List IndividualTotal),
    (assignIndPlaces k l).map (fun e => e.place) = List.range' k l.length
  | _, [] => rfl
  | k, t :: ts => by
    simp [assignIndPlaces, List.range'_succ, assignIndPlaces_map_place (k + 1) ts]

theorem assignIndPlaces_map_totalPoints : ∀ (k : ℕ) (l : List IndividualTotal),
    (assignIndPlaces k l).map (fun e => e.totalPoints) = l.map fun e => e.totalPoints
  | _, [] => rfl
  | k, t :: ts => by
    simp [assignIndPlaces, assignIndPlaces_map_totalPoints (k + 1) ts]

theorem assignIndPlaces_length (k : ℕ) (l : List IndividualTotal) :
    (assignIndPlaces k l).length = l.length := by
  have h := congrArg List.length (assignIndPlaces_map_place k l)
  simpa using h

theorem assignTeamTotalPlaces_map_place : ∀ (k : ℕ) (l : List TeamTotal),
    (assignTeamTotalPlaces k l).map (fun e => e.place) = List.range' k l.length
  | _, [] => rfl
  | k, t :: ts => by
    simp [assignTeamTotalPlaces, List.range'_succ,
      assignTeamTotalPlaces_map_place (k + 1) ts]

theorem assignTeamTotalPlaces_map_totalPoints : ∀ (k : ℕ) (l : List TeamTotal),
    (assignTeamTotalPlaces k l).map (fun e => e.totalPoints) = l.map fun e => e.totalPoints
  | _, [] => rfl
  | k, t :: ts => by
    simp [assignTeamTotalPlaces, assignTeamTotalPlaces_map_totalPoints (k + 1) ts]

theorem assignTeamTotalPlaces_length (k : ℕ) (l : List TeamTotal) :
    (assignTeamTotalPlaces k l).length = l.length := by
  have h := congrArg List.length (assignTeamTotalPlaces_map_place k l)
  simpa using h

/-- C8 counterexample: a one-event season with two athletes tied on
total points: the code gives them places 1 and 2, not a shared dense
rank — equal `totalPoints` do not imply equal `place`. -/
theorem season_rank_counterexample :
    ((calculateSeasonStandings wSeasonTie "M" none).individuals.map
      fun e => e.totalPoints) = [2, 2] ∧
    ((calculateSeasonStandings wSeasonTie "M" none).individuals.map
      fun e => e.place) = [1, 2] ∧
    ¬ ∀ x ∈ (calculateSeasonStandings wSeasonTie "M" none).individuals,
        ∀ y ∈ (calculateSeasonStandings wSeasonTie "M" none).individuals,
          x.totalPoints = y.totalPoints → x.place = y.place :=
  ⟨by decide, by decide, by decide⟩

/-- C8 (amended): season places are positional, not tie-sharing — each
cohort (individuals and teams separately) is stably sorted descending by
`totalPoints` and the places are the consecutive integers 1, 2, 3, …;
entries with equal totals get distinct consecutive places. -/
theorem season_rank_positional (events : List Event) (gender : String)
    (raceClass : Option String) :
    (calculateSeasonStandings events gender raceClass).individuals.map
        (fun e => e.place) =
      List.range' 1 (calculateSeasonStandings events gender raceClass).individuals.length ∧
    ((calculateSeasonStandings events gender raceClass).individuals.map
      fun e => e.totalPoints).Chain' (fun a b => b ≤ a) ∧
    (calculateSeasonStandings events gender raceClass).teams.map
        (fun e => e.place) =
      List.range' 1 (calculateSeasonStandings events gender raceClass).teams.length ∧
    ((calculateSeasonStandings events gender raceClass).teams.map
      fun e => e.totalPoints).Chain' (fun a b => b ≤ a) := by
  refine ⟨?_, ?_, ?_, ?_⟩
  · show (assignIndPlaces 1 _).map (fun e => e.place) =
      List.range' 1 (assignIndPlaces 1 _).length
    rw [assignIndPlaces_map_place, assignIndPlaces_length]
  · show ((assignIndPlaces 1 _).map fun e => e.totalPoints).Chain' (fun a b => b ≤ a)
    rw [assignIndPlaces_map_totalPoints]
    refine List.Pairwise.chain' ?_
    rw [List.pairwise_map]
    refine List.Pairwise.imp ?_ (List.sorted_insertionSort indTotalLE _)
    intro a b h
    exact h
  · show (assignTeamTotalPlaces 1 _).map (fun e => e.place) =
      List.range' 1 (assignTeamTotalPlaces 1 _).length
    rw [assignTeamTotalPlaces_map_place, assignTeamTotalPlaces_length]
  · show ((assignTeamTotalPlaces 1 _).map fun e => e.totalPoints).Chain' (fun a b => b ≤ a)
    rw [assignTeamTotalPlaces_map_totalPoints]
    refine List.Pairwise.chain' ?_
    rw [List.pairwise_map]
    refine List.Pairwise.imp ?_ (List.sorted_insertionSort teamTotalLE _)
    intro a b h
    exact h

/-! Characterisation of the insertion-ordered upsert accumulation. -/

theorem mem_firstOccKeys : ∀ (l : List String) (k : String),
    k ∈ firstOccKeys l ↔ k ∈ l
  | [], k => by simp [firstOccKeys]
  | x :: xs, k => by
    rw [firstOccKeys]
    by_cases hk : k = x
    · subst hk
      simp
    · simp only [List.mem_cons, hk, false_or]
      rw [mem_firstOccKeys (xs.filter fun y => y ≠ x) k]
      simp [List.mem_filter, hk]
termination_by l _ => l.length
decreasing_by
  simp only [List.length_cons]
  exact Nat.lt_succ_of_le (List.length_filter_le _ _)

theorem nodup_firstOccKeys : ∀ l : List String, (firstOccKeys l).Nodup
  | [] => by simp [firstOccKeys]
  | x :: xs => by
    rw [firstOccKeys]
    refine List.nodup_cons.mpr ⟨?_, nodup_firstOccKeys (xs.filter fun y => y ≠ x)⟩
    rw [mem_firstOccKeys]
    intro hmem
    have := (List.mem_filter.mp hmem).2
    simp at this
termination_by l => l.length
decreasing_by
  simp only [List.length_cons]
  exact Nat.lt_succ_of_le (List.length_filter_le _ _)

theorem firstOccKeys_append : ∀ (l : List String) (k : String),
    firstOccKeys (l ++ [k]) =
      if k ∈ l then firstOccKeys l else firstOccKeys l ++ [k]
  | [], k => by simp [firstOccKeys]
  | x :: xs, k => by
    rw [List.cons_append, firstOccKeys, firstOccKeys]
    have hfa : (xs ++ [k]).filter (fun y => y ≠ x) =
        xs.filter (fun y => y ≠ x) ++ if k = x then [] else [k] := by
      rw [List.filter_append]
      by_cases hkx : k = x <;> simp [hkx]
    by_cases hkx : k = x
    · rw [hfa]
      simp [hkx]
    · rw [hfa, if_neg hkx]
      rw [firstOccKeys_append (xs.filter fun y => y ≠ x) k]
      by_cases hkxs : k ∈ xs
      · have : k ∈ xs.filter (fun y => y ≠ x) :=
          List.mem_filter.mpr ⟨hkxs, by simp [hkx]⟩
        simp [this, hkxs, hkx]
      · have : k ∉ xs.filter (fun y => y ≠ x) := fun hmem =>
          hkxs (List.mem_filter.mp hmem).1
        simp [this, hkxs, hkx]
termination_by l _ => l.length
decreasing_by
  simp only [List.length_cons]
  exact Nat.lt_succ_of_le (List.length_filter_le _ _)

theorem entryOfGroup_append {E R : Type} (push : R → E → E) (d : E)
    (G : List (String × E × R)) (c : String × E × R) (hG : G ≠ []) :
    entryOfGroup push d (G ++ [c]) = push c.2.2 (entryOfGroup push d G) := by
  obtain ⟨g, gs, rfl⟩ := List.exists_cons_of_ne_nil hG
  show ((g :: gs) ++ [c]).foldl (fun e cb => push cb.2.2 e) g.2.1 = _
  rw [List.foldl_append]
  rfl

theorem upsert_canonical_step {E R : Type} (push : R → E → E) (d : E)
    (ps : List (String × E × R)) (c : String × E × R) :
    upsertWith (canonicalAccum push d ps) c.1 c.2.1 (push c.2.2) =
      canonicalAccum push d (ps ++ [c]) := by
  have hkeys : (ps ++ [c]).map Prod.fst = ps.map Prod.fst ++ [c.1] := by simp
  have hfiltc : ∀ k : String, ([c].filter fun x => x.1 = k) =
      if c.1 = k then [c] else [] := by
    intro k
    by_cases hck : c.1 = k <;> simp [List.filter_cons, hck]
  by_cases hmem : c.1 ∈ ps.map Prod.fst
  · have hany : (canonicalAccum push d ps).any (fun p => p.1 = c.1) = true := by
      rw [List.any_eq_true]
      refine ⟨(c.1, entryOfGroup push d (ps.filter fun x => x.1 = c.1)), ?_, by simp⟩
      rw [canonicalAccum]
      exact List.mem_map.mpr ⟨c.1, (mem_firstOccKeys _ _).mpr hmem, rfl⟩
    rw [upsertWith, if_pos hany]
    rw [canonicalAccum, canonicalAccum, hkeys, firstOccKeys_append,
      if_pos hmem, List.map_map]
    apply List.map_congr_left
    intro k hk
    simp only [Function.comp_def]
    by_cases hck : k = c.1
    · have hgrp : ((ps ++ [c]).filter fun x => x.1 = k) =
          (ps.filter fun x => x.1 = k) ++ [c] := by
        rw [List.filter_append, hfiltc k, if_pos hck.symm]
      have hne : (ps.filter fun x => x.1 = k) ≠ [] := by
        obtain ⟨p, hp, hpk⟩ := List.mem_map.mp hmem
        intro hnil
        have hmm : p ∈ ps.filter fun x => x.1 = k :=
          List.mem_filter.mpr ⟨hp, by simp [hpk, hck]⟩
        rw [hnil] at hmm
        cases hmm
      rw [hgrp, entryOfGroup_append push d _ c hne]
      simp [hck]
    · have hgrp : ((ps ++ [c]).filter fun x => x.1 = k) =
          ps.filter fun x => x.1 = k := by
        rw [List.filter_append, hfiltc k, if_neg (fun h => hck h.symm)]
        simp
      rw [hgrp]
      simp [hck]
  · have hany : (canonicalAccum push d ps).any (fun p => p.1 = c.1) = false := by
      rw [List.any_eq_false]
      intro p hp
      rw [canonicalAccum] at hp
      obtain ⟨k, hk, rfl⟩ := List.mem_map.mp hp
      simp only [decide_eq_true_eq]
      intro hkc
      exact hmem (hkc ▸ (mem_firstOccKeys _ _).mp hk)
    rw [upsertWith, if_neg (by rw [hany]; simp)]
    rw [canonicalAccum, canonicalAccum, hkeys, firstOccKeys_append,
      if_neg hmem, List.map_append]
    congr 1
    · apply List.map_congr_left
      intro k hk
      have hck : k ≠ c.1 := by
        intro h
        exact hmem (h ▸ (mem_firstOccKeys _ _).mp hk)
      have hgrp : ((ps ++ [c]).filter fun x => x.1 = k) =
          ps.filter fun x => x.1 = k := by
        rw [List.filter_append, hfiltc k, if_neg (fun h => hck h.symm)]
        simp
      rw [hgrp]
    · have hgrp : ((ps ++ [c]).filter fun x => x.1 = c.1) = [c] := by
        rw [List.filter_append, hfiltc c.1, if_pos rfl]
        rw [List.filter_eq_nil_iff.mpr, List.nil_append]
        intro p hp
        simp only [decide_eq_true_eq]
        intro hpk
        exact hmem (List.mem_map.mpr ⟨p, hp, hpk⟩)
      rw [List.map_cons, List.map_nil, hgrp]
      rfl

theorem foldl_upsert_canonical {E R : Type} (push : R → E → E) (d : E) :
    ∀ (cs ps : List (String × E × R)),
      cs.foldl (fun m cb => upsertWith m cb.1 cb.2.1 (push cb.2.2))
        (canonicalAccum push d ps) = canonicalAccum push d (ps ++ cs)
  | [], ps => by simp
  | c :: cs, ps => by
    rw [List.foldl_cons, upsert_canonical_step push d ps c,
      foldl_upsert_canonical push d cs (ps ++ [c])]
    simp

theorem foldl_foldl_flatten {A B C : Type} (f : A → List B) (step : C → B → C) :
    ∀ (l : List A) (init : C),
      l.foldl (fun m x => (f x).foldl step m) init =
        ((l.map f).flatten).foldl step init
  | [], _ => rfl
  | x :: l, init => by
    rw [List.foldl_cons, foldl_foldl_flatten f step l ((f x).foldl step init),
      List.map_cons, List.flatten_cons, List.foldl_append]

theorem seasonIndAccum_eq_canonical (events : List Event) (g : String)
    (c : Option String) :
    seasonIndAccum events g c =
      canonicalAccum pushIndRes {} (allIndContribs events g c) := by
  rw [seasonIndAccum, allIndContribs]
  rw [foldl_foldl_flatten (fun ev => indContribsOfEvent ev g c) indUpsert events []]
  have hnil : canonicalAccum pushIndRes ({} : IndividualTotal) [] = [] := by
    rw [canonicalAccum]
    simp [firstOccKeys]
  have h := foldl_upsert_canonical pushIndRes ({} : IndividualTotal)
    ((events.map fun ev => indContribsOfEvent ev g c).flatten) []
  rw [hnil, List.nil_append] at h
  exact h

theorem allIndContribs_spec (events : List Event) (g : String) (c : Option String) :
    ∀ cb ∈ allIndContribs events g c,
      entryKey cb.2.1 = cb.1 ∧ cb.2.1.eventResults = [] ∧ cb.2.2.points ≠ 0 := by
  intro cb hcb
  rw [allIndContribs] at hcb
  obtain ⟨l, hl, hcbl⟩ := List.mem_flatten.mp hcb
  obtain ⟨ev, _, rfl⟩ := List.mem_map.mp hl
  rw [indContribsOfEvent] at hcbl
  obtain ⟨r, hr, rfl⟩ := List.mem_map.mp hcbl
  refine ⟨rfl, rfl, ?_⟩
  have hp := (List.mem_filter.mp hr).2
  simpa using hp

theorem foldl_push_keyRows :
    ∀ (G : List (String × IndividualTotal × IndEventResult)) (e : IndividualTotal),
      keyRowsOf (G.foldl (fun a cb => pushIndRes cb.2.2 a) e) =
        (entryKey e, e.eventResults ++ G.map fun cb => cb.2.2)
  | [], e => by simp [keyRowsOf]
  | cb :: cbs, e => by
    rw [List.foldl_cons, foldl_push_keyRows cbs (pushIndRes cb.2.2 e)]
    simp [pushIndRes, entryKey, keyRowsOf]

theorem entryOfGroup_keyRows
    (G : List (String × IndividualTotal × IndEventResult)) (k : String)
    (hne : G ≠ [])
    (hkey : ∀ cb ∈ G, entryKey cb.2.1 = cb.1 ∧ cb.2.1.eventResults = [] ∧ cb.1 = k) :
    keyRowsOf (entryOfGroup pushIndRes {} G) = (k, G.map fun cb => cb.2.2) := by
  obtain ⟨c, cs, rfl⟩ := List.exists_cons_of_ne_nil hne
  show keyRowsOf ((c :: cs).foldl (fun a cb => pushIndRes cb.2.2 a) c.2.1) = _
  rw [foldl_push_keyRows]
  obtain ⟨h1, h2, h3⟩ := hkey c (List.mem_cons_self c cs)
  rw [h1, h2, h3, List.nil_append]

theorem canonicalAccum_ind_spec (events : List Event) (g : String) (c : Option String) :
    ∀ p ∈ seasonIndAccum events g c,
      entryKey p.2 = p.1 ∧
      p.2.eventResults = ((allIndContribs events g c).filter
        fun cb => cb.1 = p.1).map fun cb => cb.2.2 := by
  intro p hp
  rw [seasonIndAccum_eq_canonical, canonicalAccum] at hp
  obtain ⟨k, hk, rfl⟩ := List.mem_map.mp hp
  have hkmem : k ∈ (allIndContribs events g c).map Prod.fst :=
    (mem_firstOccKeys _ _).mp hk
  obtain ⟨cb0, hcb0, hcb0k⟩ := List.mem_map.mp hkmem
  have hne : ((allIndContribs events g c).filter fun cb => cb.1 = k) ≠ [] := by
    intro hnil
    have hmm : cb0 ∈ (allIndContribs events g c).filter fun cb => cb.1 = k :=
      List.mem_filter.mpr ⟨hcb0, by simp [hcb0k]⟩
    rw [hnil] at hmm
    cases hmm
  have hall : ∀ cb ∈ (allIndContribs events g c).filter fun x => x.1 = k,
      entryKey cb.2.1 = cb.1 ∧ cb.2.1.eventResults = [] ∧ cb.1 = k := by
    intro cb hcb
    have hm := List.mem_filter.mp hcb
    have hs := allIndContribs_spec events g c cb hm.1
    exact ⟨hs.1, hs.2.1, by simpa using hm.2⟩
  have hkr := entryOfGroup_keyRows _ k hne hall
  have h1 : entryKey (entryOfGroup pushIndRes {}
      ((allIndContribs events g c).filter fun x => x.1 = k)) = k :=
    congrArg Prod.fst hkr
  have h2 : (entryOfGroup pushIndRes {}
      ((allIndContribs events g c).filter fun x => x.1 = k)).eventResults =
      ((allIndContribs events g c).filter fun x => x.1 = k).map fun cb => cb.2.2 :=
    congrArg Prod.snd hkr
  exact ⟨h1, h2⟩

theorem applyDropInd_keyRows (N : ℕ) (e : IndividualTotal) :
    keyRowsOf (applyDropInd N e) = keyRowsOf e := rfl

theorem assignIndPlaces_map_keyRows :
    ∀ (k : ℕ) (l : List IndividualTotal),
      (assignIndPlaces k l).map keyRowsOf = l.map keyRowsOf
  | _, [] => rfl
  | k, t :: ts => by
    simp [assignIndPlaces, keyRowsOf, entryKey, assignIndPlaces_map_keyRows (k + 1) ts]

theorem individuals_keyRows_perm (events : List Event) (g : String) (c : Option String) :
    List.Perm ((calculateSeasonStandings events g c).individuals.map keyRowsOf)
      ((seasonIndAccum events g c).map fun p => keyRowsOf p.2) := by
  show List.Perm ((assignIndPlaces 1
      (((seasonIndAccum events g c).map fun p =>
        applyDropInd events.length p.2).insertionSort indTotalLE)).map keyRowsOf) _
  rw [assignIndPlaces_map_keyRows]
  have hperm := (List.perm_insertionSort indTotalLE
    ((seasonIndAccum events g c).map fun p =>
      applyDropInd events.length p.2)).map keyRowsOf
  rw [List.map_map] at hperm
  have hco : (keyRowsOf ∘ fun p : String × IndividualTotal =>
      applyDropInd events.length p.2) =
      (fun p : String × IndividualTotal => keyRowsOf p.2) :=
    funext fun p => applyDropInd_keyRows events.length p.2
  rw [hco] at hperm
  exact hperm

theorem seasonIndAccum_keys (events : List Event) (g : String) (c : Option String) :
    (seasonIndAccum events g c).map Prod.fst =
      firstOccKeys ((allIndContribs events g c).map Prod.fst) := by
  rw [seasonIndAccum_eq_canonical, canonicalAccum, List.map_map]
  simp [Function.comp_def]

theorem individuals_keys_perm (events : List Event) (g : String) (c : Option String) :
    List.Perm ((calculateSeasonStandings events g c).individuals.map entryKey)
      (firstOccKeys ((allIndContribs events g c).map Prod.fst)) := by
  have h := (individuals_keyRows_perm events g c).map Prod.fst
  rw [List.map_map, List.map_map] at h
  have h2 : ((seasonIndAccum events g c).map
      (Prod.fst ∘ fun p : String × IndividualTotal => keyRowsOf p.2)) =
      (seasonIndAccum events g c).map Prod.fst := by
    apply List.map_congr_left
    intro p hp
    exact (canonicalAccum_ind_spec events g c p hp).1
  rw [h2, seasonIndAccum_keys] at h
  exact h

/-- C7: season individual accumulation groups per-event results by the
underscore-joined key string `firstName.trim() + "_" + lastName.trim()
+ "_" + team` (the team component untrimmed): every returned season
entry carries a distinct key, its event-result rows are exactly the
season's contributions bearing its key in processing order, every
contribution's key is represented by some entry, and zero-point results
are skipped entirely. -/
theorem accumulation_key_grouping (events : List Event) (g : String)
    (c : Option String) :
    ((calculateSeasonStandings events g c).individuals.map entryKey).Nodup ∧
    (∀ e ∈ (calculateSeasonStandings events g c).individuals,
      e.eventResults = ((allIndContribs events g c).filter
        fun cb => cb.1 = entryKey e).map fun cb => cb.2.2) ∧
    (∀ cb ∈ allIndContribs events g c, cb.2.2.points ≠ 0) ∧
    (∀ cb ∈ allIndContribs events g c,
      ∃ e ∈ (calculateSeasonStandings events g c).individuals,
        entryKey e = cb.1) := by
  refine ⟨?_, ?_, ?_, ?_⟩
  · exact ((individuals_keys_perm events g c).nodup_iff).mpr (nodup_firstOccKeys _)
  · intro e he
    have hmem : keyRowsOf e ∈
        (calculateSeasonStandings events g c).individuals.map keyRowsOf :=
      List.mem_map.mpr ⟨e, he, rfl⟩
    have hmem2 := ((individuals_keyRows_perm events g c).mem_iff).mp hmem
    obtain ⟨p, hp, hpk⟩ := List.mem_map.mp hmem2
    have hspec := canonicalAccum_ind_spec events g c p hp
    have hke : entryKey p.2 = entryKey e := congrArg Prod.fst hpk
    have hre : p.2.eventResults = e.eventResults := congrArg Prod.snd hpk
    rw [← hre, ← hke, hspec.1]
    exact hspec.2
  · intro cb hcb
    exact (allIndContribs_spec events g c cb hcb).2.2
  · intro cb hcb
    have hk1 : cb.1 ∈ (allIndContribs events g c).map Prod.fst :=
      List.mem_map.mpr ⟨cb, hcb, rfl⟩
    have hk2 : cb.1 ∈ firstOccKeys ((allIndContribs events g c).map Prod.fst) :=
      (mem_firstOccKeys _ _).mpr hk1
    have hk3 : cb.1 ∈
        (calculateSeasonStandings events g c).individuals.map entryKey :=
      ((individuals_keys_perm events g c).mem_iff).mpr hk2
    obtain ⟨e, he, hek⟩ := List.mem_map.mp hk3
    exact ⟨e, he, hek⟩

/-- C7 counterexample: the same athlete with teams `"Brainerd"` and
`"Brainerd "` (trailing space) in two events yields two distinct season
entries although the trimmed (firstName, lastName, team) triples agree
— the team component of the key is not trimmed. -/
theorem accumulation_key_counterexample :
    ((calculateSeasonStandings wSeasonTrim "M" none).individuals.map
        fun e => (jsTrim e.firstName, jsTrim e.lastName, e.team.map jsTrim)) =
      [("Ann", "Zed", some "Brainerd"), ("Ann", "Zed", some "Brainerd")] ∧
    (calculateSeasonStandings wSeasonTrim "M" none).individuals.length = 2 := by
  decide

/-- Witness for C7: the grouping law instantiated on the two-event
trailing-space season, with the first returned entry and the first
contribution. -/
theorem accumulation_key_grouping_witness :
    ((calculateSeasonStandings wSeasonTrim "M" none).individuals.map entryKey).Nodup ∧
    (((calculateSeasonStandings wSeasonTrim "M" none).individuals.getD 0 {}).eventResults =
      ((allIndContribs wSeasonTrim "M" none).filter
        fun cb => cb.1 = entryKey
          ((calculateSeasonStandings wSeasonTrim "M" none).individuals.getD 0 {})).map
        fun cb => cb.2.2) ∧
    (((allIndContribs wSeasonTrim "M" none).getD 0 wContribD).2.2.points ≠ 0) ∧
    (∃ e ∈ (calculateSeasonStandings wSeasonTrim "M" none).individuals,
      entryKey e = ((allIndContribs wSeasonTrim "M" none).getD 0 wContribD).1) := by
  obtain ⟨h1, h2, h3, h4⟩ := accumulation_key_grouping wSeasonTrim "M" none
  refine ⟨h1, h2 _ ?_, h3 _ ?_, h4 _ ?_⟩ <;> decide

theorem writeAll_frame : ∀ (ps : List (ℕ × Racer)) (σ : Heap) (j : ℕ),
    (∀ p ∈ ps, p.1 ≠ j) → writeAll σ ps j = σ j
  | [], _, _, _ => rfl
  | p :: ps, σ, j, h => by
    show writeAll (hUpdate σ p.1 p.2) ps j = σ j
    rw [writeAll_frame ps (hUpdate σ p.1 p.2) j
      fun q hq => h q (List.mem_cons_of_mem p hq)]
    show (if j = p.1 then p.2 else σ j) = σ j
    rw [if_neg fun hj => h p (List.mem_cons_self p ps) hj.symm]

theorem calcIndividualH_frame (σ : Heap) (refs : List ℕ) (g : String) (j : ℕ)
    (hj : j ∉ refs) : calcIndividualH σ refs g j = σ j := by
  have htagged : ∀ p ∈ refs.zip (applyRunRankings (refs.map σ) g).1, p.1 ≠ j :=
    fun p hp hpj => hj (hpj ▸ (List.of_mem_zip hp).1)
  simp only [calcIndividualH]
  rw [writeAll_frame]
  · rw [writeAll_frame]
    exact htagged
  · intro p hp hpj
    apply hj
    rw [← hpj]
    rcases List.mem_append.mp hp with hp12 | hp3
    · rcases List.mem_append.mp hp12 with hp1 | hp2
      · have h1 := (List.of_mem_zip hp1).1
        obtain ⟨q, hq, hq1⟩ := List.mem_map.mp h1
        have hq2 := (List.mem_filter.mp ((List.mem_insertionSort _).mp hq)).1
        have hq3 := (List.mem_filter.mp hq2).1
        rw [← hq1]
        exact (List.of_mem_zip hq3).1
      · obtain ⟨q, hq, hqe⟩ := List.mem_map.mp hp2
        have hq2 := (List.mem_filter.mp hq).1
        have hq3 := (List.mem_filter.mp hq2).1
        rw [← congrArg Prod.fst hqe]
        exact (List.of_mem_zip hq3).1
    · obtain ⟨q, hq, hqe⟩ := List.mem_map.mp hp3
      have hq2 := (List.mem_filter.mp hq).1
      rw [← congrArg Prod.fst hqe]
      exact (List.of_mem_zip hq2).1

theorem writeAll_marks_frame (σ : Heap) (pn : List (ℕ × Racer)) (topN j : ℕ)
    (h : ∀ p ∈ pn, p.1 ≠ j) :
    writeAll (writeAll σ pn)
      ((((pn.insertionSort teamMemberLEP).filter
          fun p => 0 < p.2.teamPoints).take topN).map
        fun p => (p.1, { p.2 with isScoring := true })) j = σ j := by
  rw [writeAll_frame, writeAll_frame _ _ _ h]
  intro p hp hpj
  obtain ⟨q, hq, hqe⟩ := List.mem_map.mp hp
  have hq2 : q ∈ pn :=
    (List.mem_insertionSort _).mp
      (List.mem_filter.mp (List.mem_of_mem_take hq)).1
  exact h q hq2 (by rw [← hpj, ← hqe])

theorem calcTeamH_frame (σ : Heap) (refs : List ℕ) (g cls : String)
    (topN j : ℕ) (hj : j ∉ refs) : calcTeamH σ refs g cls topN j = σ j := by
  simp only [calcTeamH]
  refine writeAll_marks_frame σ _ topN j ?_
  intro p hp hpj
  apply hj
  rw [← hpj]
  rcases List.mem_append.mp hp with hp1 | hp2
  · have h1 := (List.of_mem_zip hp1).1
    obtain ⟨q, hq, hq1⟩ := List.mem_map.mp h1
    have hq2 := (List.mem_filter.mp ((List.mem_insertionSort _).mp hq)).1
    have hq3 := (List.mem_filter.mp hq2).1
    rw [← hq1]
    exact (List.of_mem_zip hq3).1
  · obtain ⟨q, hq, hqe⟩ := List.mem_map.mp hp2
    have hq2 := (List.mem_filter.mp hq).1
    have hq3 := (List.mem_filter.mp hq2).1
    rw [← congrArg Prod.fst hqe]
    exact (List.of_mem_zip hq3).1

theorem copyRacersH_frame : ∀ (ss : List ℕ) (σ : Heap) (n j : ℕ), j < n →
    (copyRacersH σ n ss).1 j = σ j
  | [], _, _, _, _ => rfl
  | s :: ss, σ, n, j, hj => by
    show (copyRacersH (hUpdate σ n (σ s)) (n + 1) ss).1 j = σ j
    rw [copyRacersH_frame ss (hUpdate σ n (σ s)) (n + 1) j (Nat.lt_succ_of_lt hj)]
    show (if j = n then σ s else σ j) = σ j
    rw [if_neg (Nat.ne_of_lt hj)]

theorem copyRacersH_next : ∀ (ss : List ℕ) (σ : Heap) (n : ℕ),
    n ≤ (copyRacersH σ n ss).2.1
  | [], _, _ => Nat.le_refl _
  | s :: ss, σ, n => by
    show n ≤ (copyRacersH (hUpdate σ n (σ s)) (n + 1) ss).2.1
    exact Nat.le_trans (Nat.le_succ n) (copyRacersH_next ss _ (n + 1))

theorem copyRacersH_refs : ∀ (ss : List ℕ) (σ : Heap) (n r : ℕ),
    r ∈ (copyRacersH σ n ss).2.2 → n ≤ r
  | [], _, _, r, hr => absurd hr (List.not_mem_nil r)
  | s :: ss, σ, n, r, hr => by
    have hr2 : r ∈ n :: (copyRacersH (hUpdate σ n (σ s)) (n + 1) ss).2.2 := hr
    rcases List.mem_cons.mp hr2 with rfl | hmem
    · exact Nat.le_refl r
    · exact Nat.le_trans (Nat.le_succ n) (copyRacersH_refs ss _ (n + 1) r hmem)

theorem seasonEventH_frame (g : String) (c : Option String) (st : Heap × ℕ)
    (ev : EventR) (j : ℕ) (hj : j < st.2) :
    (seasonEventH g c st ev).1 j = st.1 j ∧ st.2 ≤ (seasonEventH g c st ev).2 := by
  have hnotin : j ∉ (copyRacersH st.1 st.2 ev.races.flatten).2.2 := by
    intro hmem
    exact absurd hj (Nat.not_lt_of_le
      (copyRacersH_refs ev.races.flatten st.1 st.2 j hmem))
  constructor
  · show calcTeamH (calcIndividualH (copyRacersH st.1 st.2 ev.races.flatten).1
      (copyRacersH st.1 st.2 ev.races.flatten).2.2 g)
      (copyRacersH st.1 st.2 ev.races.flatten).2.2 g (effectiveClassOf c) 4 j = st.1 j
    rw [calcTeamH_frame _ _ _ _ _ _ hnotin, calcIndividualH_frame _ _ _ _ hnotin,
      copyRacersH_frame ev.races.flatten st.1 st.2 j hj]
  · show st.2 ≤ (copyRacersH st.1 st.2 ev.races.flatten).2.1
    exact copyRacersH_next ev.races.flatten st.1 st.2

theorem seasonFold_frame (g : String) (c : Option String) :
    ∀ (events : List EventR) (st : Heap × ℕ) (j : ℕ), j < st.2 →
      (events.foldl (seasonEventH g c) st).1 j = st.1 j ∧
      st.2 ≤ (events.foldl (seasonEventH g c) st).2
  | [], _, _, _ => ⟨rfl, Nat.le_refl _⟩
  | ev :: evs, st, j, hj => by
    rw [List.foldl_cons]
    have h1 := seasonEventH_frame g c st ev j hj
    have h2 := seasonFold_frame g c evs (seasonEventH g c st ev) j
      (Nat.lt_of_lt_of_le hj h1.2)
    exact ⟨h2.1.trans h1.1, Nat.le_trans h1.2 h2.2⟩

/-- C10: the season pass scores shallow copies, so the heap below the
allocation frontier is untouched: every reference the caller held still
holds its original record after `calculateSeasonStandingsH`; by contrast
a direct `calcIndividualH` call mutates the record at the reference it
is handed. -/
theorem season_frame_property :
    (∀ (σ : Heap) (n : ℕ) (events : List EventR) (g : String)
      (c : Option String) (j : ℕ), j < n →
        (calculateSeasonStandingsH σ n events g c).1 j = σ j) ∧
    calcIndividualH wHeap [0] "M" 0 ≠ wHeap 0 := by
  constructor
  · intro σ n events g c j hj
    exact (seasonFold_frame g c events (σ, n) j hj).1
  · decide

/-- Witness for C10: a one-event season over a one-racer heap leaves
reference 0 unchanged, while the direct individual-scoring pass changes
it. -/
theorem season_frame_property_witness :
    (calculateSeasonStandingsH wHeap 1 wEventsR "M" none).1 0 = wHeap 0 ∧
    calcIndividualH wHeap [0] "M" 0 ≠ wHeap 0 := by
  obtain ⟨h1, h2⟩ := season_frame_property
  exact ⟨h1 wHeap 1 wEventsR "M" none 0 (by decide), h2⟩

end CLC
